import Mathlib

/-!
Verification of the worktree-link core: a shallow embedding of the
pattern-scoped directory walker (`walker.rs`), the symlink engine
(`linker.rs`: `create_link`, `unlink_targets`, `walk_symlinks` and their
path helpers) and the orchestration relevant to configuration handling
(`main.rs`).

Modelling conventions:
* A filesystem path is its list of components below the root (`FsPath`);
  all paths in the model are absolute, mirroring the tool which
  canonicalizes its roots up front and builds targets by joining
  components.
* The filesystem is a finite association list from physical paths to
  nodes (`Fs`).  Symlinks are aliases introduced purely through
  resolution (`canonicalizeAux`), which follows intermediate and final
  symlinks with explicit fuel, mirroring the kernel's bounded symlink
  traversal.
* Directories carry a `readable` flag so that permission-denied
  behaviour of `fs::read_dir` is representable.
* Glob compilation and matching live in the external `ignore` crate; the
  embedding abstracts them as function parameters (`valid`, a matcher
  `FsPath → Bool → MatchV`, and a repo-ignore skip predicate), which the
  theorems quantify over.
-/

/-! ### Generic list-lexicographic order

Rust compares `PathBuf`s component-wise and strings byte-wise; both are
strict lexicographic orders, embedded here as one generic `lexLtB`.
`Vec::sort` becomes a stable insertion sort under the induced reflexive
order, and `Vec::dedup` (removal of adjacent duplicates) becomes
`List.destutter` with disequality.
-/

def lexLtB [DecidableEq α] (lt : α → α → Bool) : List α → List α → Bool
  | [], [] => false
  | [], _ :: _ => true
  | _ :: _, [] => false
  | a :: as, b :: bs => if a = b then lexLtB lt as bs else lt a b

def strLtB (a b : String) : Bool :=
  lexLtB (fun c d : Char => decide (c < d)) a.data b.data

/-- Component-wise path order, as `PathBuf::cmp` compares components. -/
def pathLtB (a b : List String) : Bool :=
  lexLtB strLtB a b

def pathLeB (a b : List String) : Bool :=
  pathLtB a b || a == b

/-! ### The filesystem model -/

/-- Components of an absolute path below the filesystem root. -/
abbrev FsPath := List String

inductive FsNode where
  | file : FsNode
  | dir (readable : Bool) : FsNode
  | symlink (absDest : Bool) (dest : List String) : FsNode
deriving DecidableEq, Repr

/-- A filesystem: bindings from physical paths to nodes.  Lookup takes the
first binding for a key. -/
abbrev Fs := List (FsPath × FsNode)

def fsFind : Fs → FsPath → Option FsNode
  | [], _ => none
  | (q, n) :: rest, p => if q = p then some n else fsFind rest p

/-- Remove every binding whose key belongs to `T`. -/
def eraseKeys (fs : Fs) (T : List FsPath) : Fs :=
  fs.filter fun b => decide (b.1 ∉ T)

/-- Remove a whole physical subtree (`fs::remove_dir_all`). -/
def eraseTree (fs : Fs) (p : FsPath) : Fs :=
  fs.filter fun b => decide (¬ p <+: b.1)

/-- Remove the binding of a single path (`fs::remove_file`). -/
def eraseKey (fs : Fs) (p : FsPath) : Fs :=
  fs.filter fun b => decide (b.1 ≠ p)

/-- Replace or add the binding of a single path. -/
def setNode (fs : Fs) (p : FsPath) (n : FsNode) : Fs :=
  (p, n) :: eraseKey fs p

/-- The entry names a directory read reports: last components of bindings
one level below `d` (first occurrence kept, as `read_dir` yields each
name once). -/
def childNames (fs : Fs) (d : FsPath) : List String :=
  (fs.filterMap fun b =>
    if b.1.length = d.length + 1 ∧ d <+: b.1 then b.1.getLast? else none).dedup

/-! ### Path resolution

`canonicalizeAux fs fuel acc comps` resolves `comps` against the already
physical directory `acc`, following `.`/`..` lexically against the
resolved position (as the kernel does) and expanding every symlink met,
intermediate or final.  `none` means the path does not fully resolve
(missing entry, file used as a directory, or symlink-loop fuel
exhaustion).  This is `fs::canonicalize`. -/
def canonicalizeAux (fs : Fs) : Nat → FsPath → List String → Option FsPath
  | 0, _, _ => none
  | _ + 1, acc, [] => some acc
  | fuel + 1, acc, c :: rest =>
    if c = "." then canonicalizeAux fs fuel acc rest
    else if c = ".." then canonicalizeAux fs fuel acc.dropLast rest
    else
      match fsFind fs (acc ++ [c]) with
      | none => none
      | some .file => if rest.isEmpty then some (acc ++ [c]) else none
      | some (.dir _) => canonicalizeAux fs fuel (acc ++ [c]) rest
      | some (.symlink ab d) =>
        canonicalizeAux fs fuel (if ab then [] else acc) (d ++ rest)

/-- Fuel ample for any resolution that terminates on real filesystems. -/
def resFuel (fs : Fs) (p : List String) : Nat :=
  p.length + 64 * (fs.length + 1)

def canonicalize (fs : Fs) (p : List String) : Option FsPath :=
  canonicalizeAux fs (resFuel fs p) [] p

/-- `normalize_lexically` from `linker.rs`: resolve `.` and `..` without
touching the filesystem; `..` never climbs above the root. -/
def normalize_lexically (p : List String) : FsPath :=
  p.foldl
    (fun acc c =>
      if c = "." then acc
      else if c = ".." then acc.dropLast
      else acc ++ [c])
    []

/-- Helper for the ancestor fallback: try to canonicalize the length-`k`
ancestor, longest first, re-appending the remainder on success. -/
def cwafGo (fs : Fs) (n : FsPath) : Nat → FsPath
  | 0 =>
    (match canonicalize fs [] with
     | some c => c ++ n
     | none => n)
  | k + 1 =>
    (match canonicalize fs (n.take (k + 1)) with
     | some c => c ++ n.drop (k + 1)
     | none => cwafGo fs n k)

/-- `canonicalize_with_ancestor_fallback` from `linker.rs`. -/
def canonicalize_with_ancestor_fallback (fs : Fs) (p : List String) : FsPath :=
  let n := normalize_lexically p
  cwafGo fs n n.length

/-- `Path::exists`, which follows symlinks: the path fully resolves. -/
def pexists (fs : Fs) (p : FsPath) : Bool :=
  (canonicalize fs p).isSome

/-- `Path::is_symlink` on physical bindings.  The proper ancestors the
engine feeds it are physical whenever no shallower ancestor is a symlink
binding, which is exactly the regime `has_symlink_parent`'s scan
establishes, so the lexical reading agrees with `lstat` there. -/
def isSymlinkL (fs : Fs) (p : FsPath) : Bool :=
  match fsFind fs p with
  | some (.symlink _ _) => true
  | _ => false

/-- `has_symlink_parent` from `linker.rs`: some proper ancestor directory
of `p` (the root included) is a symlink. -/
def has_symlink_parent (fs : Fs) (p : FsPath) : Bool :=
  (List.range p.length).any fun k => isSymlinkL fs (p.take k)

/-- The nonempty ancestors of `p`'s parent, shortest first. -/
def parentChain (p : FsPath) : List FsPath :=
  (List.range p.dropLast.length).map fun k => p.dropLast.take (k + 1)

/-- `create_parent_dirs` (`fs::create_dir_all` on the parent): create the
missing ancestor directories; an ancestor bound to a non-directory is a
failure. -/
def create_parent_dirs (fs : Fs) (p : FsPath) : Except String Fs :=
  (parentChain p).foldlM
    (fun acc q =>
      match fsFind acc q with
      | none => .ok (setNode acc q (.dir true))
      | some (.dir _) => .ok acc
      | some _ => .error "Failed to create parent directory")
    fs

/-- `remove_entry` from `linker.rs`: `rm -rf` for directories, unlink for
files and symlinks; fails when the entry is missing. -/
def remove_entry (fs : Fs) (p : FsPath) : Option Fs :=
  match fsFind fs p with
  | none => none
  | some (.dir _) => some (eraseTree fs p)
  | some _ => some (eraseKey fs p)

/-! ### The symlink engine: creation -/

inductive LinkAction where
  | created (source target : FsPath) : LinkAction
  | skipped (target : FsPath) (reason : String) : LinkAction
  | overwritten (source target : FsPath) : LinkAction
deriving DecidableEq, Repr

/-- `create_link` from `linker.rs`.  `source_path` is absolute by the
model's path convention, discharging the `ensure!`. -/
def create_link (fs : Fs) (source_path target_path : FsPath)
    (force dry_run : Bool) : Except String (LinkAction × Fs) :=
  if pexists fs target_path || isSymlinkL fs target_path then
    if !force then
      .ok (.skipped target_path "already exists (use --force to overwrite)", fs)
    else if has_symlink_parent fs target_path then
      .ok (.skipped target_path "parent directory is a symlink (remove it first)", fs)
    else if dry_run then .ok (.overwritten source_path target_path, fs)
    else
      match remove_entry fs target_path with
      | none => .error "Failed to remove"
      | some fs1 =>
        match create_parent_dirs fs1 target_path with
        | .error e => .error e
        | .ok fs2 =>
          .ok (.overwritten source_path target_path,
               setNode fs2 target_path (.symlink true source_path))
  else if has_symlink_parent fs target_path then
    .ok (.skipped target_path "parent directory is a symlink (remove it first)", fs)
  else if dry_run then .ok (.created source_path target_path, fs)
  else
    match create_parent_dirs fs target_path with
    | .error e => .error e
    | .ok fs2 =>
      .ok (.created source_path target_path,
           setNode fs2 target_path (.symlink true source_path))

/-! ### The symlink engine: removal -/

inductive UnlinkAction where
  | removed (path : FsPath) : UnlinkAction
  | skipped (target : FsPath) (reason : String) : UnlinkAction
deriving DecidableEq, Repr

def UnlinkAction.upath : UnlinkAction → FsPath
  | .removed p => p
  | .skipped p _ => p

/-- The link destination read from a symlink, made absolute: a relative
destination is joined against the symlink's parent directory. -/
def destPath (p : FsPath) (absDest : Bool) (d : List String) : List String :=
  if absDest then d else p.dropLast ++ d

/-- The engine state threaded through the target-side walk: the evolving
filesystem plus the accumulated outcomes (most recent first). -/
structure UState where
  fs : Fs
  acts : List UnlinkAction
deriving DecidableEq, Repr

/-- The visitor closure of `unlink_targets`: classify one discovered
symlink and, outside dry-run, remove it when its resolved destination
falls under the canonical source root.  (`fs::read_link` on an existing
symlink binding always yields its stored destination here, so the
`cannot read symlink` skip of the source is unreachable in the model.) -/
def visitEntry (csrc : FsPath) (dry_run : Bool) (st : UState) (p : FsPath) : UState :=
  match fsFind st.fs p with
  | some (.symlink ab d) =>
    let resolved := canonicalize_with_ancestor_fallback st.fs (destPath p ab d)
    if ¬ csrc.isPrefixOf resolved then st
    else if dry_run then { st with acts := .removed p :: st.acts }
    else
      match remove_entry st.fs p with
      | some fs2 => { fs := fs2, acts := .removed p :: st.acts }
      | none => { st with acts := .skipped p "removal failed" :: st.acts }
  | _ => st

/-- One directory's entry loop in `walk_symlinks`: symlinks go to the
visitor, subdirectories other than `.git` are recursed into via
`visitDir`, everything else is skipped. -/
def walkChildren (csrc : FsPath) (dry_run : Bool)
    (visitDir : FsPath → UState → Except String UState) (dir : FsPath) :
    List String → UState → Except String UState
  | [], st => .ok st
  | n :: ns, st =>
    let p := dir ++ [n]
    match fsFind st.fs p with
    | some (.symlink _ _) =>
      walkChildren csrc dry_run visitDir dir ns (visitEntry csrc dry_run st p)
    | some (.dir _) =>
      if n = ".git" then walkChildren csrc dry_run visitDir dir ns st
      else
        match visitDir p st with
        | .error e => .error e
        | .ok st2 => walkChildren csrc dry_run visitDir dir ns st2
    | _ => walkChildren csrc dry_run visitDir dir ns st

/-- `walk_symlinks` from `linker.rs`, specialised to the unlink visitor.
A missing directory is silently fine, an unreadable one is warned about
and skipped, a non-directory propagates the read error; a symlink target
root is read through its resolution, as `fs::read_dir` follows links. -/
def walk_symlinks (csrc : FsPath) (dry_run : Bool) :
    Nat → FsPath → UState → Except String UState
  | 0, _, st => .ok st
  | fuel + 1, dir, st =>
    match fsFind st.fs dir with
    | none => .ok st
    | some (.dir false) => .ok st
    | some (.dir true) =>
      walkChildren csrc dry_run (walk_symlinks csrc dry_run fuel) dir
        (childNames st.fs dir) st
    | some .file => .error "Failed to read dir"
    | some (.symlink _ _) =>
      match canonicalize st.fs dir with
      | some q => walk_symlinks csrc dry_run fuel q st
      | none => .ok st

/-- An upper bound on the depth of any binding, so the walk's fuel never
runs out on paths that exist. -/
def fsDepth (fs : Fs) : Nat :=
  fs.foldr (fun b m => max b.1.length m) 0

def sortActs (l : List UnlinkAction) : List UnlinkAction :=
  List.insertionSort (fun a b => pathLeB a.upath b.upath = true) l

/-- `unlink_targets` from `linker.rs`: canonicalize the source root, walk
the target root removing symlinks that resolve into it, and sort the
outcomes by path.  The final filesystem is returned alongside. -/
def unlink_targets (fs : Fs) (source_dir target_dir : FsPath)
    (dry_run : Bool) : Except String (List UnlinkAction × Fs) :=
  match canonicalize fs source_dir with
  | none => .error "Failed to canonicalize source dir"
  | some csrc =>
    match walk_symlinks csrc dry_run (fsDepth fs + 3) target_dir ⟨fs, []⟩ with
    | .error e => .error e
    | .ok st => .ok (sortActs st.acts, st.fs)

/-! ### The pattern-scoped directory walker -/

/-- The three-way verdict of the override matcher (`ignore::Match`). -/
inductive MatchV where
  | nomatch : MatchV
  | whitelist : MatchV
  | ignored : MatchV
deriving DecidableEq, Repr

/-- One item of the walk stream: a yielded entry, or an entry-read error
yielded as an `Err` item (which `collect_targets` propagates). -/
inductive CItem where
  | entry (p : FsPath) (isDir : Bool) : CItem
  | failed : CItem
deriving DecidableEq, Repr

def FsNode.isDirNode : FsNode → Bool
  | .dir _ => true
  | _ => false

/-- One directory's entry loop of the source-side walk: the
`filter_entry` closure prunes `.git` and records whitelisted directories
without descending; the repo-ignore layer (`skipE`) drops entries it
covers; everything else is yielded and directories are descended via
`walkSub`.  Symlinked entries are never directories here
(`follow_links` is off), so they are yielded but not entered. -/
def collectChildren (fs : Fs) (m : FsPath → Bool → MatchV)
    (skipE : FsPath → Bool → Bool)
    (walkSub : FsPath → List CItem × List FsPath) (dir : FsPath) :
    List String → List CItem × List FsPath
  | [] => ([], [])
  | n :: ns =>
    let rest := collectChildren fs m skipE walkSub dir ns
    let p := dir ++ [n]
    match fsFind fs p with
    | none => rest
    | some node =>
      if n = ".git" then rest
      else if node.isDirNode = true ∧ m p true = MatchV.whitelist then
        (rest.1, p :: rest.2)
      else if skipE p node.isDirNode = true then rest
      else
        let sub := if node.isDirNode = true then walkSub p else ([], [])
        (CItem.entry p node.isDirNode :: (sub.1 ++ rest.1), sub.2 ++ rest.2)

/-- The recursive source-side walk below an already-yielded directory:
reading an unreadable directory puts an `Err` item on the stream; a
missing or non-directory path contributes nothing. -/
def collectWalk (fs : Fs) (m : FsPath → Bool → MatchV)
    (skipE : FsPath → Bool → Bool) : Nat → FsPath → List CItem × List FsPath
  | 0, _ => ([], [])
  | fuel + 1, p =>
    match fsFind fs p with
    | some (.dir true) =>
      collectChildren fs m skipE (collectWalk fs m skipE fuel) p (childNames fs p)
    | some (.dir false) => ([.failed], [])
    | _ => ([], [])

/-- The full walk stream from the root: the root entry itself is yielded
first (a missing root is an `Err` item), then its subtree.  The second
component is the list the `filter_entry` closure accumulated. -/
def collectStream (fs : Fs) (m : FsPath → Bool → MatchV)
    (skipE : FsPath → Bool → Bool) (root : FsPath) (fuel : Nat) :
    List CItem × List FsPath :=
  match fsFind fs root with
  | none => ([.failed], [])
  | some node =>
    let sub :=
      if node.isDirNode then collectWalk fs m skipE fuel root else ([], [])
    (CItem.entry root node.isDirNode :: sub.1, sub.2)

/-- The main loop of `collect_targets`: any `Err` item aborts with an
error; the root is skipped; whitelisted entries are kept. -/
def streamTargets (m : FsPath → Bool → MatchV) (root : FsPath) :
    List CItem → Except Unit (List FsPath)
  | [] => .ok []
  | .failed :: _ => .error ()
  | .entry p isDir :: rest =>
    match streamTargets m root rest with
    | .error e => .error e
    | .ok l =>
      if p = root then .ok l
      else if m p isDir = MatchV.whitelist then .ok (p :: l)
      else .ok l

def sortDedupPaths (l : List FsPath) : List FsPath :=
  List.destutter (· ≠ ·) (List.insertionSort (fun a b => pathLeB a b = true) l)

/-- `collect_targets` from `walker.rs` (given a compiled matcher): walk,
filter by whitelist verdict, append the pruned whitelisted directories,
then sort and deduplicate. -/
def collect_targets (fs : Fs) (m : FsPath → Bool → MatchV)
    (skipE : FsPath → Bool → Bool) (root : FsPath) (fuel : Nat) :
    Except Unit (List FsPath) :=
  let s := collectStream fs m skipE root fuel
  match streamTargets m root s.1 with
  | .error e => .error e
  | .ok ts => .ok (sortDedupPaths (ts ++ s.2))

/-! ### Orchestration (`main.rs`, link mode) -/

/-- `build_overrides` from `walker.rs`: adding any invalid pattern to the
builder is a hard failure; otherwise the compiled matcher results.  Glob
validity and compilation are the external `ignore` crate, abstracted as
parameters. -/
def build_overrides (valid : String → Bool)
    (compile : List String → FsPath → Bool → MatchV)
    (patterns : List String) : Except String (FsPath → Bool → MatchV) :=
  if patterns.all valid then .ok (compile patterns) else .error "Invalid pattern"

inductive RunOutcome where
  | warned : RunOutcome
  | failed (msg : String) : RunOutcome
  | completed (actions : List LinkAction) : RunOutcome
deriving DecidableEq, Repr

/-- The per-candidate linking loop of `main.rs`: each candidate's path
relative to the source root is joined onto the target root and linked;
a `create_link` error aborts the run. -/
def linkPhase (source target : FsPath) (force dry_run : Bool) :
    List FsPath → Fs → List LinkAction → RunOutcome × Fs
  | [], fs, acc => (.completed acc.reverse, fs)
  | sp :: rest, fs, acc =>
    match create_link fs sp (target ++ sp.drop source.length) force dry_run with
    | .error e => (.failed e, fs)
    | .ok (a, fs2) => linkPhase source target force dry_run rest fs2 (a :: acc)

/-- Link mode of `main.rs` after config loading: an empty pattern list is
reported with a warning and the run exits successfully before any
filesystem access; otherwise the walker (which compiles the overrides,
failing the run on an invalid pattern) collects candidates, an empty
candidate list again warns and exits, and the rest are linked. -/
def run_link (fs : Fs) (valid : String → Bool)
    (compile : List String → FsPath → Bool → MatchV)
    (skipE : FsPath → Bool → Bool) (patterns : List String)
    (source target : FsPath) (force dry_run : Bool) (fuel : Nat) :
    RunOutcome × Fs :=
  if patterns.isEmpty then (.warned, fs)
  else
    match build_overrides valid compile patterns with
    | .error e => (.failed e, fs)
    | .ok m =>
      match collect_targets fs m skipE source fuel with
      | .error _ => (.failed "Error walking directory", fs)
      | .ok targets =>
        if targets.isEmpty then (.warned, fs)
        else linkPhase source target force dry_run targets fs []

/-! ### Properties of the path order -/

theorem lexLtB_trichot [DecidableEq α] (lt : α → α → Bool)
    (h : ∀ a b : α, a = b ∨ lt a b = true ∨ lt b a = true) :
    ∀ as bs : List α, as = bs ∨ lexLtB lt as bs = true ∨ lexLtB lt bs as = true
  | [], [] => Or.inl rfl
  | [], _ :: _ => Or.inr (Or.inl rfl)
  | _ :: _, [] => Or.inr (Or.inr rfl)
  | a :: as, b :: bs => by
    by_cases hab : a = b
    · subst hab
      rcases lexLtB_trichot lt h as bs with h1 | h1 | h1
      · exact Or.inl (by rw [h1])
      · exact Or.inr (Or.inl (by simpa [lexLtB] using h1))
      · exact Or.inr (Or.inr (by simpa [lexLtB] using h1))
    · rcases h a b with h1 | h1 | h1
      · exact absurd h1 hab
      · exact Or.inr (Or.inl (by simp [lexLtB, hab, h1]))
      · exact Or.inr (Or.inr (by simp [lexLtB, Ne.symm hab, h1]))

theorem lexLtB_asymm [DecidableEq α] (lt : α → α → Bool)
    (h : ∀ a b : α, lt a b = true → lt b a = true → False) :
    ∀ as bs : List α, lexLtB lt as bs = true → lexLtB lt bs as = true → False
  | [], [], h1, _ => by simp [lexLtB] at h1
  | [], _ :: _, _, h2 => by simp [lexLtB] at h2
  | _ :: _, [], h1, _ => by simp [lexLtB] at h1
  | a :: as, b :: bs, h1, h2 => by
    by_cases hab : a = b
    · subst hab
      simp only [lexLtB, if_pos rfl] at h1 h2
      exact lexLtB_asymm lt h as bs h1 h2
    · simp only [lexLtB, if_neg hab, if_neg (Ne.symm hab)] at h1 h2
      exact h a b h1 h2

theorem lexLtB_trans [DecidableEq α] (lt : α → α → Bool)
    (hasym : ∀ a b : α, lt a b = true → lt b a = true → False)
    (htr : ∀ a b c : α, lt a b = true → lt b c = true → lt a c = true) :
    ∀ as bs cs : List α, lexLtB lt as bs = true → lexLtB lt bs cs = true →
      lexLtB lt as cs = true
  | [], [], _, h1, _ => by simp [lexLtB] at h1
  | [], _ :: _, [], _, h2 => by simp [lexLtB] at h2
  | [], _ :: _, _ :: _, _, _ => rfl
  | _ :: _, [], _, h1, _ => by simp [lexLtB] at h1
  | _ :: _, _ :: _, [], _, h2 => by simp [lexLtB] at h2
  | a :: as, b :: bs, c :: cs, h1, h2 => by
    by_cases hab : a = b <;> by_cases hbc : b = c
    · subst hab; subst hbc
      simp only [lexLtB, if_pos rfl] at h1 h2 ⊢
      exact lexLtB_trans lt hasym htr as bs cs h1 h2
    · subst hab
      simp only [lexLtB, if_pos rfl, if_neg hbc] at h1 h2 ⊢
      exact h2
    · subst hbc
      simp only [lexLtB, if_neg hab] at h1 ⊢
      exact h1
    · simp only [lexLtB, if_neg hab, if_neg hbc] at h1 h2
      by_cases hac : a = c
      · subst hac; exact absurd (htr a b a h1 h2) (fun hx => hasym a a hx hx)
      · simp only [lexLtB, if_neg hac]
        exact htr a b c h1 h2

theorem strLtB_trichot (a b : String) :
    a = b ∨ strLtB a b = true ∨ strLtB b a = true := by
  rcases lexLtB_trichot (fun c d : Char => decide (c < d))
      (fun c d => by
        rcases lt_trichotomy c d with h | h | h
        · exact Or.inr (Or.inl (by simpa using h))
        · exact Or.inl h
        · exact Or.inr (Or.inr (by simpa using h)))
      a.data b.data with h | h | h
  · exact Or.inl (String.ext h)
  · exact Or.inr (Or.inl h)
  · exact Or.inr (Or.inr h)

theorem strLtB_asymm (a b : String) :
    strLtB a b = true → strLtB b a = true → False :=
  lexLtB_asymm (fun c d : Char => decide (c < d))
    (fun c d h1 h2 => absurd (of_decide_eq_true h2) (lt_asymm (of_decide_eq_true h1)))
    a.data b.data

theorem strLtB_trans (a b c : String) :
    strLtB a b = true → strLtB b c = true → strLtB a c = true :=
  lexLtB_trans (fun c d : Char => decide (c < d))
    (fun c d h1 h2 => absurd (of_decide_eq_true h2) (lt_asymm (of_decide_eq_true h1)))
    (fun c d e h1 h2 =>
      decide_eq_true (lt_trans (of_decide_eq_true h1) (of_decide_eq_true h2)))
    a.data b.data c.data

theorem pathLtB_trichot (a b : FsPath) :
    a = b ∨ pathLtB a b = true ∨ pathLtB b a = true :=
  lexLtB_trichot strLtB strLtB_trichot a b

theorem pathLtB_asymm (a b : FsPath) :
    pathLtB a b = true → pathLtB b a = true → False :=
  lexLtB_asymm strLtB strLtB_asymm a b

theorem pathLtB_trans (a b c : FsPath) :
    pathLtB a b = true → pathLtB b c = true → pathLtB a c = true :=
  lexLtB_trans strLtB strLtB_asymm strLtB_trans a b c

theorem pathLeB_total (a b : FsPath) : pathLeB a b = true ∨ pathLeB b a = true := by
  unfold pathLeB
  rcases pathLtB_trichot a b with h | h | h
  · subst h; simp
  · simp [h]
  · simp [h]

theorem pathLeB_trans (a b c : FsPath) :
    pathLeB a b = true → pathLeB b c = true → pathLeB a c = true := by
  unfold pathLeB
  intro h1 h2
  rcases Bool.or_eq_true_iff.mp h1 with h1 | h1 <;>
    rcases Bool.or_eq_true_iff.mp h2 with h2 | h2
  · simp [pathLtB_trans a b c h1 h2]
  · rw [beq_iff_eq] at h2; subst h2; simp [h1]
  · rw [beq_iff_eq] at h1; subst h1; simp [h2]
  · rw [beq_iff_eq] at h1; subst h1; simp [h2]

theorem pathLeB_antisymm (a b : FsPath) :
    pathLeB a b = true → pathLeB b a = true → a = b := by
  unfold pathLeB
  intro h1 h2
  rcases Bool.or_eq_true_iff.mp h1 with h1 | h1
  · rcases Bool.or_eq_true_iff.mp h2 with h2 | h2
    · exact absurd h2 (fun hx => pathLtB_asymm a b h1 hx)
    · exact (beq_iff_eq.mp h2).symm
  · exact beq_iff_eq.mp h1

theorem sorted_insSortPaths (l : List FsPath) :
    (List.insertionSort (fun a b => pathLeB a b = true) l).Pairwise
      (fun a b => pathLeB a b = true) :=
  @List.sorted_insertionSort FsPath (fun a b => pathLeB a b = true) _
    ⟨pathLeB_total⟩ ⟨fun a b c => pathLeB_trans a b c⟩ l

theorem pairwise_ne_of_sorted :
    ∀ l : List FsPath, l.Pairwise (fun a b => pathLeB a b = true) →
      l.Chain' (· ≠ ·) → l.Pairwise (· ≠ ·) := by
  intro l
  induction l with
  | nil => intro _ _; exact List.Pairwise.nil
  | cons a t ih =>
    intro hp hc
    rw [List.pairwise_cons] at hp ⊢
    refine ⟨?_, ih hp.2 hc.tail⟩
    intro x hx
    cases t with
    | nil => cases hx
    | cons b t2 =>
      have hab : a ≠ b := (List.chain'_cons.mp hc).1
      rcases List.mem_cons.mp hx with rfl | hx2
      · exact hab
      · intro hax
        subst hax
        have h1 : pathLeB a b = true := hp.1 b (List.mem_cons_self b t2)
        have h2 : pathLeB b a = true :=
          (List.pairwise_cons.mp hp.2).1 a hx2
        exact hab (pathLeB_antisymm a b h1 h2)

theorem sortDedupPaths_sorted (l : List FsPath) :
    (sortDedupPaths l).Pairwise (fun a b => pathLeB a b = true) :=
  List.Pairwise.sublist (List.destutter_sublist _ _) (sorted_insSortPaths l)

theorem sortDedupPaths_nodup (l : List FsPath) : (sortDedupPaths l).Nodup :=
  pairwise_ne_of_sorted _ (sortDedupPaths_sorted l)
    (List.destutter_is_chain' _ _)

theorem mem_sortDedupPaths {x : FsPath} {l : List FsPath}
    (h : x ∈ sortDedupPaths l) : x ∈ l :=
  (List.perm_insertionSort (fun a b => pathLeB a b = true) l).mem_iff.mp
    ((List.destutter_sublist _ _).mem h)

theorem mem_sortActs {a : UnlinkAction} {l : List UnlinkAction} :
    a ∈ sortActs l ↔ a ∈ l :=
  (List.perm_insertionSort _ l).mem_iff

/-! ### C1: the symlink-parent safety guard -/

/-- C1: for every target path with a symlink among its ancestor
directories, `create_link` — under any combination of `force` and
`dry_run` — performs no filesystem mutation and returns a `Skipped`
outcome: the returned filesystem is the input one unchanged. -/
theorem c1_symlink_parent_skips (fs : Fs) (sp tp : FsPath)
    (force dry_run : Bool) (h : has_symlink_parent fs tp = true) :
    ∃ r, create_link fs sp tp force dry_run = .ok (.skipped tp r, fs) := by
  unfold create_link
  by_cases h1 : (pexists fs tp || isSymlinkL fs tp) = true
  · rw [if_pos h1]
    by_cases hf : force = true
    · simp [hf, h]
    · simp [Bool.not_eq_true _ ▸ hf]
  · rw [if_neg h1, if_pos h]
    exact ⟨_, rfl⟩

def wfsA : Fs :=
  [([], .dir true), (["s"], .symlink true ["d"]), (["d"], .dir true)]

/-- Witness for C1 at a concrete filesystem whose target parent `s` is a
symlink. -/
theorem c1_witness :
    has_symlink_parent wfsA ["s", "x"] = true ∧
    ∃ r, create_link wfsA ["d", "y"] ["s", "x"] true false =
      .ok (.skipped ["s", "x"] r, wfsA) :=
  ⟨by decide, c1_symlink_parent_skips wfsA ["d", "y"] ["s", "x"] true false (by decide)⟩

/-! ### C10: target-root read failures in unlink mode -/

/-- C10: given a canonicalizable source root, a target root that is
missing (`NotFound`) or an unreadable directory (`PermissionDenied`)
makes `unlink_targets` return `Ok` with an empty outcome list and the
filesystem untouched, while another read failure of the target root (a
non-directory) propagates as an error. -/
theorem c10_root_read_failures (fs : Fs) (src tgt : FsPath) (dry : Bool)
    (csrc : FsPath) (hsrc : canonicalize fs src = some csrc) :
    ((fsFind fs tgt = none ∨ fsFind fs tgt = some (.dir false)) →
      unlink_targets fs src tgt dry = .ok ([], fs)) ∧
    (fsFind fs tgt = some .file →
      unlink_targets fs src tgt dry = .error "Failed to read dir") := by
  have hfuel : fsDepth fs + 3 = (fsDepth fs + 2) + 1 := rfl
  constructor
  · intro htgt
    unfold unlink_targets
    rw [hsrc, hfuel]
    rcases htgt with htgt | htgt <;> simp [walk_symlinks, htgt, sortActs]
  · intro htgt
    unfold unlink_targets
    rw [hsrc, hfuel]
    simp [walk_symlinks, htgt]

def wfsB : Fs := [([], .dir true), (["src"], .dir true)]

def wfsC : Fs :=
  [([], .dir true), (["src"], .dir true), (["t"], .dir false)]

def wfsD : Fs :=
  [([], .dir true), (["src"], .dir true), (["t"], .file)]

/-- Witness for C10: a missing target root and an unreadable one give an
empty `Ok`, a plain-file target root propagates an error. -/
theorem c10_witness :
    unlink_targets wfsB ["src"] ["t"] false = .ok ([], wfsB) ∧
    unlink_targets wfsC ["src"] ["t"] false = .ok ([], wfsC) ∧
    unlink_targets wfsD ["src"] ["t"] false = .error "Failed to read dir" :=
  ⟨(c10_root_read_failures wfsB ["src"] ["t"] false ["src"] (by decide)).1
      (Or.inl (by decide)),
   (c10_root_read_failures wfsC ["src"] ["t"] false ["src"] (by decide)).1
      (Or.inr (by decide)),
   (c10_root_read_failures wfsD ["src"] ["t"] false ["src"] (by decide)).2
      (by decide)⟩

/-! ### C6: configuration-error handling of the run -/

/-- Counterexample to C6 as stated: with an empty pattern set the run
does not fail — it warns and exits successfully, leaving the filesystem
untouched, rather than being a fatal configuration error. -/
theorem c6_counterexample :
    run_link wfsB (fun _ => true) (fun _ _ _ => MatchV.nomatch) (fun _ _ => false)
      [] ["src"] ["t"] false false 5 = (RunOutcome.warned, wfsB) ∧
    (∀ msg, RunOutcome.warned ≠ RunOutcome.failed msg) :=
  ⟨rfl, fun _ h => RunOutcome.noConfusion h⟩

/-- C6 amended: invalid pattern syntax is fatal and aborts before any
filesystem modification is attempted, while an empty pattern set merely
warns: the run exits successfully, equally before touching the
filesystem. -/
theorem c6_amended_config_errors (fs : Fs) (valid : String → Bool)
    (compile : List String → FsPath → Bool → MatchV)
    (skipE : FsPath → Bool → Bool) (src tgt : FsPath)
    (force dry fuel) :
    run_link fs valid compile skipE [] src tgt force dry fuel =
      (RunOutcome.warned, fs) ∧
    (∀ patterns : List String, (∃ p ∈ patterns, valid p = false) →
      run_link fs valid compile skipE patterns src tgt force dry fuel =
        (RunOutcome.failed "Invalid pattern", fs)) := by
  constructor
  · rfl
  · intro patterns hp
    rcases hp with ⟨p, hmem, hval⟩
    have hne : patterns.isEmpty = false := by
      cases patterns with
      | nil => cases hmem
      | cons a l => rfl
    have hall : patterns.all valid = false := by
      rw [List.all_eq_false]
      exact ⟨p, hmem, by simp [hval]⟩
    unfold run_link build_overrides
    rw [hne, hall]
    simp

/-- Witness for C6 amended, at a validity oracle that rejects `[`. -/
theorem c6_witness :
    run_link wfsB (fun s => s ≠ "[") (fun _ _ _ => MatchV.nomatch)
      (fun _ _ => false) [] ["src"] ["t"] false false 5 =
      (RunOutcome.warned, wfsB) ∧
    run_link wfsB (fun s => s ≠ "[") (fun _ _ _ => MatchV.nomatch)
      (fun _ _ => false) ["[", ".env"] ["src"] ["t"] false false 5 =
      (RunOutcome.failed "Invalid pattern", wfsB) :=
  ⟨(c6_amended_config_errors wfsB (fun s => decide (s ≠ "[")) (fun _ _ _ => MatchV.nomatch)
      (fun _ _ => false) ["src"] ["t"] false false 5).1,
   (c6_amended_config_errors wfsB (fun s => decide (s ≠ "[")) (fun _ _ _ => MatchV.nomatch)
      (fun _ _ => false) ["src"] ["t"] false false 5).2 ["[", ".env"]
      ⟨"[", by decide, by decide⟩⟩

/-! ### C3: entry-read errors during collect -/

/-- Errors on the walk stream and the result of the main loop: the loop
returns an error exactly when some stream item is an error item. -/
theorem streamTargets_error_iff (m : FsPath → Bool → MatchV) (root : FsPath) :
    ∀ items : List CItem,
      streamTargets m root items = .error () ↔ CItem.failed ∈ items := by
  intro items
  induction items with
  | nil => simp [streamTargets]
  | cons i rest ih =>
    cases i with
    | failed => simp [streamTargets]
    | entry p isDir =>
      simp only [streamTargets, List.mem_cons]
      constructor
      · intro h
        cases hrec : streamTargets m root rest with
        | error e => cases e; exact Or.inr (ih.mp hrec)
        | ok l =>
          rw [hrec] at h
          by_cases hp : p = root
          · simp [hp] at h
          · by_cases hm : m p isDir = MatchV.whitelist <;> simp [hp, hm] at h
      · intro h
        rcases h with h | h
        · exact CItem.noConfusion h
        · rw [ih.mpr h]

/-- Counterexample to C3 as stated: with a perfectly readable root but
one unreadable subdirectory below it, `collect_targets` aborts with an
error instead of logging and skipping that entry. -/
theorem c3_counterexample :
    fsFind [([], FsNode.dir true), (["r"], FsNode.dir true),
            (["r", "sub"], FsNode.dir false)] ["r"] = some (FsNode.dir true) ∧
    collect_targets [([], FsNode.dir true), (["r"], FsNode.dir true),
            (["r", "sub"], FsNode.dir false)]
        (fun _ _ => MatchV.nomatch) (fun _ _ => false) ["r"] 5 = .error () :=
  ⟨rfl, rfl⟩

/-- C3 amended: every read error the walk yields — whether for the root
directory or for any subdirectory descended into — aborts `collect` with
an error; per-entry read failures are not skipped.  `collect` succeeds
exactly when the walk stream carries no error item. -/
theorem c3_amended_walk_errors_abort (fs : Fs) (m : FsPath → Bool → MatchV)
    (skipE : FsPath → Bool → Bool) (root : FsPath) (fuel : Nat) :
    collect_targets fs m skipE root fuel = .error () ↔
      CItem.failed ∈ (collectStream fs m skipE root fuel).1 := by
  simp only [collect_targets]
  rw [← streamTargets_error_iff m root]
  cases h : streamTargets m root (collectStream fs m skipE root fuel).1 with
  | error e =>
    cases e
    simp
  | ok l =>
    simp

/-! ### C8 and C4: shape of the collected candidate set -/

/-- The paths of the whitelisted entries of a walk stream — exactly the
entries the main loop of `collect_targets` retains (root aside). -/
def wlEntries (m : FsPath → Bool → MatchV) (items : List CItem) : List FsPath :=
  items.filterMap fun i =>
    match i with
    | .entry p d => if m p d = MatchV.whitelist then some p else none
    | .failed => none

/-- Everything `collect` can retain below the directory `p`:
whitelisted yielded entries plus pruned whitelisted directories. -/
def Rwalk (fs : Fs) (m : FsPath → Bool → MatchV) (skipE : FsPath → Bool → Bool)
    (fuel : Nat) (p : FsPath) : List FsPath :=
  wlEntries m (collectWalk fs m skipE fuel p).1 ++ (collectWalk fs m skipE fuel p).2

/-- What one directory entry named `n` below `dir` contributes to the
retained set: the singleton-entry instance of the entry loop. -/
def contrib (fs : Fs) (m : FsPath → Bool → MatchV) (skipE : FsPath → Bool → Bool)
    (fuel : Nat) (dir : FsPath) (n : String) : List FsPath :=
  wlEntries m
      (collectChildren fs m skipE (collectWalk fs m skipE fuel) dir [n]).1 ++
    (collectChildren fs m skipE (collectWalk fs m skipE fuel) dir [n]).2

theorem wlEntries_append (m : FsPath → Bool → MatchV) (a b : List CItem) :
    wlEntries m (a ++ b) = wlEntries m a ++ wlEntries m b :=
  List.filterMap_append _ _ _

theorem wlEntries_nil (m : FsPath → Bool → MatchV) : wlEntries m [] = [] := rfl

theorem wlEntries_cons_entry (m : FsPath → Bool → MatchV) (p : FsPath)
    (d : Bool) (items : List CItem) :
    wlEntries m (CItem.entry p d :: items) =
      (if m p d = MatchV.whitelist then [p] else []) ++ wlEntries m items := by
  by_cases h : m p d = MatchV.whitelist <;>
    simp [wlEntries, List.filterMap_cons, h]

theorem collectChildren_cons_mem (fs : Fs) (m : FsPath → Bool → MatchV)
    (skipE : FsPath → Bool → Bool) (fuel : Nat) (dir : FsPath) (q : FsPath)
    (n : String) (ns : List String) :
    (q ∈ wlEntries m
        (collectChildren fs m skipE (collectWalk fs m skipE fuel) dir (n :: ns)).1 ∨
      q ∈ (collectChildren fs m skipE (collectWalk fs m skipE fuel) dir (n :: ns)).2) ↔
    (q ∈ contrib fs m skipE fuel dir n ∨
      (q ∈ wlEntries m
          (collectChildren fs m skipE (collectWalk fs m skipE fuel) dir ns).1 ∨
        q ∈ (collectChildren fs m skipE (collectWalk fs m skipE fuel) dir ns).2)) := by
  simp only [contrib, collectChildren]
  cases hf : fsFind fs (dir ++ [n]) with
  | none => simp [wlEntries_nil]
  | some node =>
    by_cases hg : n = ".git"
    · simp [hg, hf, wlEntries_nil]
    · by_cases hw : node.isDirNode = true ∧ m (dir ++ [n]) true = MatchV.whitelist
      · simp only [hg, if_false, hw, if_true]
        simp [wlEntries_nil]
        tauto
      · by_cases hs : skipE (dir ++ [n]) node.isDirNode = true
        · simp only [hg, if_false, hw, hs, if_true]
          simp [wlEntries_nil]
        · simp only [hg, if_false, hw, hs]
          by_cases hd : node.isDirNode = true
          · have hnwl : ¬ m (dir ++ [n]) true = MatchV.whitelist :=
              fun h => hw ⟨hd, h⟩
            simp only [hd, if_true]
            rw [hd] at *
            simp [wlEntries_cons_entry, wlEntries_append, hnwl]
            tauto
          · have hd2 : node.isDirNode = false := by
              cases hx : node.isDirNode
              · rfl
              · exact absurd hx hd
            simp only [hd2, if_false]
            simp [wlEntries_cons_entry, wlEntries_append]
            by_cases hw2 : m (dir ++ [n]) false = MatchV.whitelist <;>
              simp [hw2] <;> tauto

theorem mem_collectChildren_iff (fs : Fs) (m : FsPath → Bool → MatchV)
    (skipE : FsPath → Bool → Bool) (fuel : Nat) (dir : FsPath) (q : FsPath) :
    ∀ ns : List String,
      (q ∈ wlEntries m
          (collectChildren fs m skipE (collectWalk fs m skipE fuel) dir ns).1 ∨
        q ∈ (collectChildren fs m skipE (collectWalk fs m skipE fuel) dir ns).2) ↔
      ∃ n ∈ ns, q ∈ contrib fs m skipE fuel dir n := by
  intro ns
  induction ns with
  | nil => simp [collectChildren, wlEntries_nil]
  | cons n ns ih =>
    rw [collectChildren_cons_mem fs m skipE fuel dir q n ns, ih]
    simp

/-- A contribution is empty, the single child itself, or the retained set
of the child subtree (for a descended, non-whitelisted directory). -/
theorem contrib_cases (fs : Fs) (m : FsPath → Bool → MatchV)
    (skipE : FsPath → Bool → Bool) (fuel : Nat) (dir : FsPath) (n : String) :
    contrib fs m skipE fuel dir n = [] ∨
    contrib fs m skipE fuel dir n = [dir ++ [n]] ∨
    ((∃ node, fsFind fs (dir ++ [n]) = some node ∧ node.isDirNode = true ∧
        m (dir ++ [n]) true ≠ MatchV.whitelist) ∧
      contrib fs m skipE fuel dir n = Rwalk fs m skipE fuel (dir ++ [n])) := by
  simp only [contrib, collectChildren]
  cases hf : fsFind fs (dir ++ [n]) with
  | none => exact Or.inl rfl
  | some node =>
    by_cases hg : n = ".git"
    · simp only [hg, if_true]
      exact Or.inl rfl
    · by_cases hw : node.isDirNode = true ∧ m (dir ++ [n]) true = MatchV.whitelist
      · simp only [hg, if_false, hw, if_true]
        exact Or.inr (Or.inl (by simp [wlEntries_nil]))
      · by_cases hs : skipE (dir ++ [n]) node.isDirNode = true
        · simp only [hg, if_false, hw, hs, if_true]
          exact Or.inl rfl
        · simp only [hg, if_false, hw, hs]
          by_cases hd : node.isDirNode = true
          · have hnwl : ¬ m (dir ++ [n]) true = MatchV.whitelist :=
              fun h => hw ⟨hd, h⟩
            refine Or.inr (Or.inr ⟨⟨node, rfl, hd, hnwl⟩, ?_⟩)
            simp only [hd, if_true]
            simp [wlEntries_cons_entry, wlEntries_append, wlEntries_nil, hnwl, Rwalk]
          · have hd2 : node.isDirNode = false := by
              cases hx : node.isDirNode
              · rfl
              · exact absurd hx hd
            simp only [hd2, if_false]
            by_cases hw2 : m (dir ++ [n]) false = MatchV.whitelist
            · exact Or.inr (Or.inl (by
                simp [wlEntries_cons_entry, wlEntries_append, wlEntries_nil, hd2, hw2]))
            · exact Or.inl (by
                simp [wlEntries_cons_entry, wlEntries_append, wlEntries_nil, hd2, hw2])

/-- Core walk invariant: every retained path strictly extends the walked
directory, and the retained set below one directory is free of strict
prefix pairs. -/
theorem Rwalk_dom_pf (fs : Fs) (m : FsPath → Bool → MatchV)
    (skipE : FsPath → Bool → Bool) :
    ∀ fuel p,
      (∀ q ∈ Rwalk fs m skipE fuel p, p <+: q ∧ p ≠ q) ∧
      (∀ a ∈ Rwalk fs m skipE fuel p, ∀ b ∈ Rwalk fs m skipE fuel p,
        a <+: b → a = b) := by
  intro fuel
  induction fuel with
  | zero =>
    intro p
    constructor
    · intro q hq
      simp [Rwalk, collectWalk, wlEntries_nil] at hq
    · intro a ha
      simp [Rwalk, collectWalk, wlEntries_nil] at ha
  | succ fuel ih =>
    intro p
    have hmem : ∀ q, q ∈ Rwalk fs m skipE (fuel + 1) p →
        ∃ n, q ∈ contrib fs m skipE fuel p n := by
      intro q hq
      rw [Rwalk] at hq
      cases hfp : fsFind fs p with
      | none =>
        simp only [collectWalk, hfp, wlEntries_nil] at hq
        simp at hq
      | some node =>
        cases node with
        | dir readable =>
          cases readable with
          | true =>
            simp only [collectWalk, hfp] at hq
            have := (mem_collectChildren_iff fs m skipE fuel p q
              (childNames fs p)).mp (List.mem_append.mp hq)
            exact this.imp fun n h => h.2
          | false =>
            simp only [collectWalk, hfp] at hq
            simp [wlEntries] at hq
        | file =>
          simp only [collectWalk, hfp, wlEntries_nil] at hq
          simp at hq
        | symlink ab d =>
          simp only [collectWalk, hfp, wlEntries_nil] at hq
          simp at hq
    have hcontrib_dom : ∀ n q, q ∈ contrib fs m skipE fuel p n →
        (p ++ [n]) <+: q := by
      intro n q hq
      rcases contrib_cases fs m skipE fuel p n with hc | hc | ⟨_, hc⟩
      · rw [hc] at hq; cases hq
      · rw [hc] at hq
        rcases List.mem_singleton.mp hq with rfl
        exact List.prefix_refl _
      · rw [hc] at hq
        exact ((ih (p ++ [n])).1 q hq).1
    constructor
    · intro q hq
      rcases hmem q hq with ⟨n, hn⟩
      have h1 := hcontrib_dom n q hn
      have h2 : p <+: (p ++ [n]) := List.prefix_append p [n]
      refine ⟨h2.trans h1, ?_⟩
      intro hpq
      have := h1.length_le
      simp [← hpq] at this
    · intro a ha b hb hab
      rcases hmem a ha with ⟨n1, hn1⟩
      rcases hmem b hb with ⟨n2, hn2⟩
      have d1 := hcontrib_dom n1 a hn1
      have d2 := hcontrib_dom n2 b hn2
      have c1 : (p ++ [n1]) <+: b := d1.trans hab
      have hsame : p ++ [n1] = p ++ [n2] := by
        rcases List.prefix_or_prefix_of_prefix c1 d2 with h | h
        · exact h.eq_of_length (by simp)
        · exact (h.eq_of_length (by simp)).symm
      have hn12 : n1 = n2 := by
        have h3 := List.append_cancel_left hsame
        simpa using h3
      subst hn12
      rcases contrib_cases fs m skipE fuel p n1 with hc | hc | ⟨_, hc⟩
      · rw [hc] at hn1; cases hn1
      · rw [hc] at hn1 hn2
        have e1 := List.mem_singleton.mp hn1
        have e2 := List.mem_singleton.mp hn2
        rw [e1, e2]
      · rw [hc] at hn1 hn2
        exact (ih (p ++ [n1])).2 a hn1 b hn2 hab

theorem mem_wlEntries_of (m : FsPath → Bool → MatchV) {items : List CItem}
    {x : FsPath} {d : Bool} (h : CItem.entry x d ∈ items)
    (hwl : m x d = MatchV.whitelist) : x ∈ wlEntries m items :=
  List.mem_filterMap.mpr ⟨CItem.entry x d, h, by simp [hwl]⟩

theorem streamTargets_ok_mem (m : FsPath → Bool → MatchV) (root : FsPath) :
    ∀ (items : List CItem) (l : List FsPath),
      streamTargets m root items = .ok l →
      ∀ x ∈ l, x ≠ root ∧ ∃ d, CItem.entry x d ∈ items ∧ m x d = MatchV.whitelist := by
  intro items
  induction items with
  | nil =>
    intro l h x hx
    simp only [streamTargets] at h
    cases h
    cases hx
  | cons i rest ih =>
    intro l h x hx
    cases i with
    | failed => simp [streamTargets] at h
    | entry p isDir =>
      simp only [streamTargets] at h
      cases hrec : streamTargets m root rest with
      | error e => rw [hrec] at h; simp at h
      | ok l0 =>
        simp only [hrec] at h
        by_cases hp : p = root
        · rw [if_pos hp] at h
          cases h
          have h2 := ih _ hrec x hx
          exact ⟨h2.1, h2.2.imp fun d hd => ⟨List.mem_cons_of_mem _ hd.1, hd.2⟩⟩
        · rw [if_neg hp] at h
          by_cases hm : m p isDir = MatchV.whitelist
          · rw [if_pos hm] at h
            cases h
            rcases List.mem_cons.mp hx with rfl | hx2
            · exact ⟨hp, isDir, List.mem_cons_self _ _, hm⟩
            · have h2 := ih _ hrec x hx2
              exact ⟨h2.1, h2.2.imp fun d hd => ⟨List.mem_cons_of_mem _ hd.1, hd.2⟩⟩
          · rw [if_neg hm] at h
            cases h
            have h2 := ih _ hrec x hx
            exact ⟨h2.1, h2.2.imp fun d hd => ⟨List.mem_cons_of_mem _ hd.1, hd.2⟩⟩

/-- Every path returned by `collect_targets` lies in the retained set of
the walk below the root. -/
theorem collect_ok_mem (fs : Fs) (m : FsPath → Bool → MatchV)
    (skipE : FsPath → Bool → Bool) (root : FsPath) (fuel : Nat)
    (res : List FsPath) (h : collect_targets fs m skipE root fuel = .ok res) :
    ∀ x ∈ res, x ∈ Rwalk fs m skipE fuel root := by
  intro x hx
  simp only [collect_targets] at h
  cases hst : streamTargets m root (collectStream fs m skipE root fuel).1 with
  | error e => rw [hst] at h; simp at h
  | ok ts =>
    simp only [hst] at h
    cases h
    have hx2 := mem_sortDedupPaths hx
    rcases List.mem_append.mp hx2 with hx3 | hx3
    · have h2 := streamTargets_ok_mem m root _ ts hst x hx3
      rcases h2 with ⟨hne, d, hmem, hwl⟩
      simp only [collectStream] at hmem
      cases hfr : fsFind fs root with
      | none =>
        simp only [hfr] at hmem
        simp at hmem
      | some node =>
        simp only [hfr, List.mem_cons] at hmem
        rcases hmem with heq | hmem
        · cases heq; exact absurd rfl hne
        · by_cases hd : node.isDirNode = true
          · rw [if_pos hd] at hmem
            exact List.mem_append.mpr (Or.inl (mem_wlEntries_of m hmem hwl))
          · rw [if_neg hd] at hmem
            cases hmem
    · simp only [collectStream] at hx3
      cases hfr : fsFind fs root with
      | none =>
        simp only [hfr] at hx3
        cases hx3
      | some node =>
        simp only [hfr] at hx3
        by_cases hd : node.isDirNode = true
        · rw [if_pos hd] at hx3
          exact List.mem_append.mpr (Or.inr hx3)
        · rw [if_neg hd] at hx3
          cases hx3

/-- C8: the candidate list returned by `collect_targets` is sorted in
ascending path order, contains no duplicates, and never contains the
source root itself. -/
theorem c8_sorted_nodup_noroot (fs : Fs) (m : FsPath → Bool → MatchV)
    (skipE : FsPath → Bool → Bool) (root : FsPath) (fuel : Nat)
    (res : List FsPath) (h : collect_targets fs m skipE root fuel = .ok res) :
    res.Pairwise (fun a b => pathLeB a b = true) ∧ res.Nodup ∧ root ∉ res := by
  have hform : ∃ l, res = sortDedupPaths l := by
    simp only [collect_targets] at h
    cases hst : streamTargets m root (collectStream fs m skipE root fuel).1 with
    | error e => rw [hst] at h; cases h
    | ok ts => rw [hst] at h; cases h; exact ⟨_, rfl⟩
  rcases hform with ⟨l, rfl⟩
  refine ⟨sortDedupPaths_sorted l, sortDedupPaths_nodup l, ?_⟩
  intro hr
  have := collect_ok_mem fs m skipE root fuel _ h root hr
  exact ((Rwalk_dom_pf fs m skipE fuel root).1 root this).2 rfl

/-- C4: the candidate list returned by `collect_targets` is prefix-free:
a returned path that is a path-prefix of another returned path is equal
to it, so no candidate is a strict ancestor of another (whitelisted
directories are recorded and never descended into). -/
theorem c4_prefix_free (fs : Fs) (m : FsPath → Bool → MatchV)
    (skipE : FsPath → Bool → Bool) (root : FsPath) (fuel : Nat)
    (res : List FsPath) (h : collect_targets fs m skipE root fuel = .ok res) :
    ∀ a ∈ res, ∀ b ∈ res, a <+: b → a = b := by
  intro a ha b hb hab
  exact (Rwalk_dom_pf fs m skipE fuel root).2 a
    (collect_ok_mem fs m skipE root fuel res h a ha) b
    (collect_ok_mem fs m skipE root fuel res h b hb) hab

def wfsW : Fs :=
  [([], .dir true), (["r"], .dir true), (["r", ".env"], .file),
   (["r", "main.rs"], .file), (["r", "node_modules"], .dir true),
   (["r", "node_modules", "pkg"], .dir true),
   (["r", "node_modules", "pkg", "index.js"], .file)]

def wMatch : FsPath → Bool → MatchV := fun p _ =>
  if p.getLast? = some ".env" ∨ p.getLast? = some "node_modules" then
    MatchV.whitelist
  else MatchV.nomatch

/-- Witness for C8 on a concrete tree: the collected list is the sorted,
duplicate-free pair and the root is absent. -/
theorem c8_witness :
    collect_targets wfsW wMatch (fun _ _ => false) ["r"] 5 =
      .ok [["r", ".env"], ["r", "node_modules"]] ∧
    (([["r", ".env"], ["r", "node_modules"]] : List FsPath).Pairwise
        (fun a b => pathLeB a b = true) ∧
      ([["r", ".env"], ["r", "node_modules"]] : List FsPath).Nodup ∧
      ["r"] ∉ ([["r", ".env"], ["r", "node_modules"]] : List FsPath)) :=
  ⟨rfl,
   c8_sorted_nodup_noroot wfsW wMatch (fun _ _ => false) ["r"] 5
     [["r", ".env"], ["r", "node_modules"]] rfl⟩

/-- Witness for C4 on the same concrete tree: `node_modules` is collapsed
to the directory itself and the result carries no strict-ancestor pair. -/
theorem c4_witness :
    collect_targets wfsW wMatch (fun _ _ => false) ["r"] 5 =
      .ok [["r", ".env"], ["r", "node_modules"]] ∧
    (∀ a ∈ ([["r", ".env"], ["r", "node_modules"]] : List FsPath),
      ∀ b ∈ ([["r", ".env"], ["r", "node_modules"]] : List FsPath),
        a <+: b → a = b) :=
  ⟨rfl,
   c4_prefix_free wfsW wMatch (fun _ _ => false) ["r"] 5
     [["r", ".env"], ["r", "node_modules"]] rfl⟩

/-! ### Pointwise behaviour of the filesystem operations -/

theorem fsFind_eraseKeys (fs : Fs) (T : List FsPath) (q : FsPath) :
    fsFind (eraseKeys fs T) q = if q ∈ T then none else fsFind fs q := by
  induction fs with
  | nil => simp [eraseKeys, fsFind]
  | cons b rest ih =>
    rcases b with ⟨k, v⟩
    by_cases hk : k ∈ T
    · have h1 : eraseKeys ((k, v) :: rest) T = eraseKeys rest T := by
        simp [eraseKeys, List.filter_cons, hk]
      rw [h1, ih]
      by_cases hq : k = q
      · subst hq
        simp [hk]
      · by_cases hq2 : q ∈ T
        · simp [hq2]
        · simp only [if_neg hq2]
          simp [fsFind, hq]
    · have h1 : eraseKeys ((k, v) :: rest) T = (k, v) :: eraseKeys rest T := by
        simp [eraseKeys, List.filter_cons, hk]
      rw [h1]
      by_cases hq : k = q
      · subst hq
        simp [fsFind, hk]
      · simp only [fsFind, if_neg hq]
        exact ih

theorem fsFind_setNode (fs : Fs) (p : FsPath) (n : FsNode) (q : FsPath) :
    fsFind (setNode fs p n) q = if q = p then some n else fsFind fs q := by
  simp only [setNode, fsFind]
  by_cases hq : q = p
  · simp [hq]
  · rw [if_neg (fun h => hq h.symm), if_neg hq]
    have : eraseKey fs p = eraseKeys fs [p] := by
      simp [eraseKey, eraseKeys]
    rw [this, fsFind_eraseKeys]
    simp [hq]

theorem eraseKey_eq_eraseKeys (fs : Fs) (p : FsPath) :
    eraseKey fs p = eraseKeys fs [p] := by
  simp [eraseKey, eraseKeys]

theorem eraseKeys_nil (fs : Fs) : eraseKeys fs [] = fs := by
  simp [eraseKeys]

theorem eraseKeys_eraseKeys (fs : Fs) (T1 T2 : List FsPath) :
    eraseKeys (eraseKeys fs T1) T2 = eraseKeys fs (T2 ++ T1) := by
  simp only [eraseKeys, List.filter_filter]
  apply List.filter_congr
  intro b _
  by_cases h1 : b.1 ∈ T1 <;> by_cases h2 : b.1 ∈ T2 <;>
    simp [h1, h2, List.mem_append]

/-! ### The target-side walk: shape of reachable states

The unlink walk only ever removes symlinks that lie strictly below the
walked directory, outside `.git` subtrees, and each removal (and each
reported outcome) is justified by the resolved destination falling under
the canonical source root in the filesystem state current at the visit —
a state obtained from the entry state by erasing some previously removed
symlinks of the same kind.
-/

def strictUnder (dir q : FsPath) : Prop := dir <+: q ∧ dir ≠ q

def gitFreeBelow (dir q : FsPath) : Prop :=
  ".git" ∉ (q.drop dir.length).dropLast

/-- A path the walk below `dir` may remove: strictly below `dir`, not
inside a `.git` directory, and bound to a symlink. -/
def walkRemovable (fs0 : Fs) (dir q : FsPath) : Prop :=
  strictUnder dir q ∧ gitFreeBelow dir q ∧
    ∃ ab d, fsFind fs0 q = some (.symlink ab d)

/-- The engine's reason for touching `p` in state `sfs`: it reads a
symlink there whose resolved destination falls under `csrc`. -/
def actJustified (csrc : FsPath) (sfs : Fs) (p : FsPath) : Prop :=
  ∃ ab d, fsFind sfs p = some (.symlink ab d) ∧
    csrc <+: canonicalize_with_ancestor_fallback sfs (destPath p ab d)

/-- Relation between the state entering a walk of `dir` and the state it
produces. -/
def WalkShape (csrc : FsPath) (fs0 : Fs) (dir : FsPath)
    (acts0 : List UnlinkAction) (st2 : UState) : Prop :=
  ∃ T new,
    st2.fs = eraseKeys fs0 T ∧
    st2.acts = new ++ acts0 ∧
    (∀ q ∈ T, walkRemovable fs0 dir q ∧
      ∃ T2, (∀ q2 ∈ T2, walkRemovable fs0 dir q2) ∧
        actJustified csrc (eraseKeys fs0 T2) q) ∧
    (∀ a ∈ new, walkRemovable fs0 dir a.upath ∧
      ∃ T2, (∀ q2 ∈ T2, walkRemovable fs0 dir q2) ∧
        actJustified csrc (eraseKeys fs0 T2) a.upath)

theorem walkShape_refl (csrc : FsPath) (fs0 : Fs) (dir : FsPath)
    (acts0 : List UnlinkAction) : WalkShape csrc fs0 dir acts0 ⟨fs0, acts0⟩ :=
  ⟨[], [], (eraseKeys_nil fs0).symm, rfl, by simp, by simp⟩

theorem walkRemovable_of_erase {fs0 : Fs} {T1 : List FsPath} {dir q : FsPath}
    (h : walkRemovable (eraseKeys fs0 T1) dir q) : walkRemovable fs0 dir q := by
  refine ⟨h.1, h.2.1, ?_⟩
  rcases h.2.2 with ⟨ab, d, hf⟩
  rw [fsFind_eraseKeys] at hf
  by_cases hq : q ∈ T1
  · rw [if_pos hq] at hf; cases hf
  · rw [if_neg hq] at hf; exact ⟨ab, d, hf⟩

theorem walkShape_compose {csrc : FsPath} {fs0 : Fs} {dir : FsPath}
    {acts0 : List UnlinkAction} {st1 st2 : UState}
    (h1 : WalkShape csrc fs0 dir acts0 st1)
    (h2 : WalkShape csrc st1.fs dir st1.acts st2) :
    WalkShape csrc fs0 dir acts0 st2 := by
  rcases h1 with ⟨TA, newA, hfs1, hacts1, hTA, hnewA⟩
  rcases h2 with ⟨TB, newB, hfs2, hacts2, hTB, hnewB⟩
  rw [hfs1] at hfs2
  rw [eraseKeys_eraseKeys] at hfs2
  rw [hacts1] at hacts2
  refine ⟨TB ++ TA, newB ++ newA, hfs2, by rw [hacts2, List.append_assoc], ?_, ?_⟩
  · intro q hq
    rcases List.mem_append.mp hq with hq | hq
    · have h3 := hTB q hq
      rw [hfs1] at h3
      refine ⟨walkRemovable_of_erase h3.1, ?_⟩
      rcases h3.2 with ⟨T2, hT2, hj⟩
      refine ⟨T2 ++ TA, ?_, ?_⟩
      · intro q2 hq2
        rcases List.mem_append.mp hq2 with hq2 | hq2
        · exact walkRemovable_of_erase (hT2 q2 hq2)
        · exact (hTA q2 hq2).1
      · rw [eraseKeys_eraseKeys] at hj
        exact hj
    · exact hTA q hq
  · intro a ha
    rcases List.mem_append.mp ha with ha | ha
    · have h3 := hnewB a ha
      rw [hfs1] at h3
      refine ⟨walkRemovable_of_erase h3.1, ?_⟩
      rcases h3.2 with ⟨T2, hT2, hj⟩
      refine ⟨T2 ++ TA, ?_, ?_⟩
      · intro q2 hq2
        rcases List.mem_append.mp hq2 with hq2 | hq2
        · exact walkRemovable_of_erase (hT2 q2 hq2)
        · exact (hTA q2 hq2).1
      · rw [eraseKeys_eraseKeys] at hj
        exact hj
    · exact hnewA a ha

theorem strictUnder_child (dir : FsPath) (n : String) :
    strictUnder dir (dir ++ [n]) := by
  refine ⟨List.prefix_append dir [n], ?_⟩
  intro h
  have : dir.length = (dir ++ [n]).length := by rw [← h]
  simp at this

theorem gitFreeBelow_child (dir : FsPath) (n : String) :
    gitFreeBelow dir (dir ++ [n]) := by
  unfold gitFreeBelow
  rw [List.drop_left]
  simp

theorem strictUnder_lift {dir q : FsPath} {n : String}
    (h : strictUnder (dir ++ [n]) q) : strictUnder dir q := by
  refine ⟨(List.prefix_append dir [n]).trans h.1, ?_⟩
  intro heq
  have h1 := h.1.length_le
  simp [← heq] at h1

theorem gitFreeBelow_lift {dir q : FsPath} {n : String} (hn : n ≠ ".git")
    (hsu : strictUnder (dir ++ [n]) q) (h : gitFreeBelow (dir ++ [n]) q) :
    gitFreeBelow dir q := by
  rcases hsu.1 with ⟨r, hr⟩
  have hrne : r ≠ [] := by
    intro h0
    rw [h0, List.append_nil] at hr
    exact hsu.2 hr
  unfold gitFreeBelow at h ⊢
  rw [← hr]
  rw [← hr] at h
  rw [List.append_assoc, List.drop_left]
  rw [List.drop_left] at h
  cases r with
  | nil => exact absurd rfl hrne
  | cons r0 rs =>
    simp only [List.singleton_append, List.dropLast_cons₂, List.mem_cons]
    intro hcon
    rcases hcon with hcon | hcon
    · exact hn hcon.symm
    · exact h hcon

theorem walkRemovable_lift {fs0 : Fs} {dir q : FsPath} {n : String}
    (hn : n ≠ ".git") (h : walkRemovable fs0 (dir ++ [n]) q) :
    walkRemovable fs0 dir q :=
  ⟨strictUnder_lift h.1, gitFreeBelow_lift hn h.1 h.2.1, h.2.2⟩

theorem walkShape_lift {csrc : FsPath} {fs0 : Fs} {dir : FsPath} {n : String}
    {acts0 : List UnlinkAction} {st2 : UState} (hn : n ≠ ".git")
    (h : WalkShape csrc fs0 (dir ++ [n]) acts0 st2) :
    WalkShape csrc fs0 dir acts0 st2 := by
  rcases h with ⟨T, new, hfs, hacts, hT, hnew⟩
  refine ⟨T, new, hfs, hacts, ?_, ?_⟩
  · intro q hq
    rcases hT q hq with ⟨hr, T2, hT2, hj⟩
    exact ⟨walkRemovable_lift hn hr,
      T2, fun q2 hq2 => walkRemovable_lift hn (hT2 q2 hq2), hj⟩
  · intro a ha
    rcases hnew a ha with ⟨hr, T2, hT2, hj⟩
    exact ⟨walkRemovable_lift hn hr,
      T2, fun q2 hq2 => walkRemovable_lift hn (hT2 q2 hq2), hj⟩

theorem visitEntry_shape (csrc : FsPath) (dry : Bool) (st : UState)
    (dir : FsPath) (p : FsPath) (hsu : strictUnder dir p)
    (hgf : gitFreeBelow dir p) :
    WalkShape csrc st.fs dir st.acts (visitEntry csrc dry st p) := by
  unfold visitEntry
  cases hf : fsFind st.fs p with
  | none => exact walkShape_refl csrc st.fs dir st.acts
  | some node =>
    cases node with
    | file => exact walkShape_refl csrc st.fs dir st.acts
    | dir b => exact walkShape_refl csrc st.fs dir st.acts
    | symlink ab d =>
      show WalkShape csrc st.fs dir st.acts
        (if ¬ List.isPrefixOf csrc
              (canonicalize_with_ancestor_fallback st.fs (destPath p ab d)) = true
         then st
         else if dry = true then { st with acts := .removed p :: st.acts }
         else
           match remove_entry st.fs p with
           | some fs2 => { fs := fs2, acts := .removed p :: st.acts }
           | none => { st with acts := .skipped p "removal failed" :: st.acts })
      by_cases hres :
          ¬ List.isPrefixOf csrc
            (canonicalize_with_ancestor_fallback st.fs (destPath p ab d)) = true
      · rw [if_pos hres]
        exact walkShape_refl csrc st.fs dir st.acts
      · rw [if_neg hres]
        have hpre : csrc <+: canonicalize_with_ancestor_fallback st.fs (destPath p ab d) := by
          rw [← List.isPrefixOf_iff_prefix]
          exact Bool.of_not_eq_false (by simpa using hres)
        have hjust : actJustified csrc (eraseKeys st.fs []) p := by
          rw [eraseKeys_nil]
          exact ⟨ab, d, hf, hpre⟩
        have hrem : walkRemovable st.fs dir p := ⟨hsu, hgf, ab, d, hf⟩
        cases dry with
        | true =>
          simp only [if_pos rfl]
          exact ⟨[], [.removed p], (eraseKeys_nil st.fs).symm, rfl, by simp,
            by
              intro a ha
              rcases List.mem_singleton.mp ha with rfl
              exact ⟨hrem, [], by simp, hjust⟩⟩
        | false =>
          simp only [Bool.false_eq_true, if_false]
          have hre : remove_entry st.fs p = some (eraseKey st.fs p) := by
            rw [remove_entry, hf]
          rw [hre]
          refine ⟨[p], [.removed p], ?_, rfl, ?_, ?_⟩
          · rw [eraseKey_eq_eraseKeys]
          · intro q hq
            rcases List.mem_singleton.mp hq with rfl
            exact ⟨hrem, [], by simp, hjust⟩
          · intro a ha
            rcases List.mem_singleton.mp ha with rfl
            exact ⟨hrem, [], by simp, hjust⟩

theorem walkChildren_shape (csrc : FsPath) (dry : Bool)
    (visitDir : FsPath → UState → Except String UState) (dir : FsPath)
    (Hvd : ∀ n (st1 : UState) b, fsFind st1.fs (dir ++ [n]) = some (.dir b) →
      n ≠ ".git" → ∃ st2, visitDir (dir ++ [n]) st1 = .ok st2 ∧
        WalkShape csrc st1.fs dir st1.acts st2) :
    ∀ (ns : List String) (st1 : UState),
      ∃ st2, walkChildren csrc dry visitDir dir ns st1 = .ok st2 ∧
        WalkShape csrc st1.fs dir st1.acts st2 := by
  intro ns
  induction ns with
  | nil =>
    intro st1
    exact ⟨st1, rfl, walkShape_refl csrc st1.fs dir st1.acts⟩
  | cons n ns ih =>
    intro st1
    simp only [walkChildren]
    cases hf : fsFind st1.fs (dir ++ [n]) with
    | none =>
      rcases ih st1 with ⟨st2, hok, hsh⟩
      exact ⟨st2, hok, hsh⟩
    | some node =>
      cases node with
      | file =>
        rcases ih st1 with ⟨st2, hok, hsh⟩
        exact ⟨st2, hok, hsh⟩
      | symlink ab d =>
        rcases ih (visitEntry csrc dry st1 (dir ++ [n])) with ⟨st2, hok, hsh⟩
        refine ⟨st2, hok, walkShape_compose ?_ hsh⟩
        exact visitEntry_shape csrc dry st1 dir (dir ++ [n])
          (strictUnder_child dir n) (gitFreeBelow_child dir n)
      | dir b =>
        by_cases hg : n = ".git"
        · rw [if_pos hg]
          rcases ih st1 with ⟨st2, hok, hsh⟩
          exact ⟨st2, hok, hsh⟩
        · rw [if_neg hg]
          rcases Hvd n st1 b hf hg with ⟨st15, hok15, hsh15⟩
          rw [hok15]
          rcases ih st15 with ⟨st2, hok, hsh⟩
          exact ⟨st2, hok, walkShape_compose hsh15 hsh⟩

/-- Master lemma for the unlink walk: entered on a path that is absent or
a directory, the walk succeeds and relates entry to exit state by
`WalkShape`. -/
theorem walk_shape (csrc : FsPath) (dry : Bool) :
    ∀ (fuel : Nat) (dir : FsPath) (fs0 : Fs) (acts0 : List UnlinkAction),
      (fsFind fs0 dir = none ∨ ∃ b, fsFind fs0 dir = some (.dir b)) →
      ∃ st2, walk_symlinks csrc dry fuel dir ⟨fs0, acts0⟩ = .ok st2 ∧
        WalkShape csrc fs0 dir acts0 st2 := by
  intro fuel
  induction fuel with
  | zero =>
    intro dir fs0 acts0 _
    exact ⟨⟨fs0, acts0⟩, rfl, walkShape_refl csrc fs0 dir acts0⟩
  | succ fuel ih =>
    intro dir fs0 acts0 hd
    rcases hd with hd | ⟨b, hd⟩
    · refine ⟨⟨fs0, acts0⟩, ?_, walkShape_refl csrc fs0 dir acts0⟩
      simp [walk_symlinks, hd]
    · cases b with
      | false =>
        refine ⟨⟨fs0, acts0⟩, ?_, walkShape_refl csrc fs0 dir acts0⟩
        simp [walk_symlinks, hd]
      | true =>
        have hW := walkChildren_shape csrc dry (walk_symlinks csrc dry fuel) dir
          (fun n st1 b2 hfind hgit => by
            rcases ih (dir ++ [n]) st1.fs st1.acts (Or.inr ⟨b2, hfind⟩) with
              ⟨st2, hok, hsh⟩
            exact ⟨st2, hok, walkShape_lift hgit hsh⟩)
          (childNames fs0 dir) ⟨fs0, acts0⟩
        rcases hW with ⟨st2, hok, hsh⟩
        refine ⟨st2, ?_, hsh⟩
        simp only [walk_symlinks, hd]
        exact hok

/-! ### C9: `.git` subtrees on the target side are never touched -/

/-- C9: `unlink_targets` never reports or removes a symlink lying inside
a directory named `.git` below the target root: its binding is untouched
and no outcome names it.  (The target root itself is a directory or
absent, as `main.rs` guarantees by canonicalizing it.) -/
theorem c9_git_subtrees_untouched (fs : Fs) (src tgt : FsPath) (dry : Bool)
    (acts : List UnlinkAction) (fs2 : Fs) (p : FsPath)
    (htgt : fsFind fs tgt = none ∨ ∃ b, fsFind fs tgt = some (.dir b))
    (hrun : unlink_targets fs src tgt dry = .ok (acts, fs2))
    (hgit : ".git" ∈ (p.drop tgt.length).dropLast) :
    (∀ a ∈ acts, a.upath ≠ p) ∧ fsFind fs2 p = fsFind fs p := by
  simp only [unlink_targets] at hrun
  cases hsrc : canonicalize fs src with
  | none => rw [hsrc] at hrun; simp at hrun
  | some csrc =>
    simp only [hsrc] at hrun
    rcases walk_shape csrc dry (fsDepth fs + 3) tgt fs [] htgt with ⟨st2, hok, hsh⟩
    simp only [hok] at hrun
    cases hrun
    rcases hsh with ⟨T, new, hfs, hacts, hT, hnew⟩
    constructor
    · intro a ha hap
      have ha2 : a ∈ st2.acts := mem_sortActs.mp ha
      rw [hacts] at ha2
      simp only [List.append_nil] at ha2
      have h3 := (hnew a ha2).1
      rw [hap] at h3
      exact h3.2.1 hgit
    · rw [hfs, fsFind_eraseKeys]
      rw [if_neg]
      intro hp
      exact ((hT p hp).1).2.1 hgit

def wfs9 : Fs :=
  [([], .dir true), (["src"], .dir true), (["t"], .dir true),
   (["t", ".git"], .dir true), (["t", ".git", "ln"], .symlink true ["src"]),
   (["t", "x"], .symlink true ["src"])]

def wfs9after : Fs :=
  [([], .dir true), (["src"], .dir true), (["t"], .dir true),
   (["t", ".git"], .dir true), (["t", ".git", "ln"], .symlink true ["src"])]

/-- Witness for C9: the link inside `.git` keeps its binding and never
appears among the outcomes, while its sibling outside `.git` is removed. -/
theorem c9_witness :
    unlink_targets wfs9 ["src"] ["t"] false =
      .ok ([.removed ["t", "x"]], wfs9after) ∧
    (∀ a ∈ [UnlinkAction.removed ["t", "x"]], a.upath ≠ ["t", ".git", "ln"]) ∧
    fsFind wfs9after ["t", ".git", "ln"] = fsFind wfs9 ["t", ".git", "ln"] :=
  ⟨rfl,
   c9_git_subtrees_untouched wfs9 ["src"] ["t"] false
     [.removed ["t", "x"]] wfs9after ["t", ".git", "ln"]
     (Or.inr ⟨true, rfl⟩) rfl (by decide)⟩

/-! ### C7: symlinks resolving outside the source root -/

def exFs7 : Fs :=
  [([], .dir true),
   (["src"], .dir true),
   (["src", "d"], .dir true),
   (["src", "d", "m"], .symlink true ["tgt", "A", "r"]),
   (["src", "s"], .dir true),
   (["src", "s", "r"], .symlink true ["out2", "r2"]),
   (["out2"], .dir true),
   (["out2", "r2"], .dir true),
   (["out2", "r2", "x"], .file),
   (["lnk"], .symlink true ["src", "d"]),
   (["tgt"], .dir true),
   (["tgt", "A"], .symlink true ["src", "s"]),
   (["tgt", "zz"], .symlink true ["lnk", "m", "x"])]

def exFs7after : Fs :=
  [([], .dir true),
   (["src"], .dir true),
   (["src", "d"], .dir true),
   (["src", "d", "m"], .symlink true ["tgt", "A", "r"]),
   (["src", "s"], .dir true),
   (["src", "s", "r"], .symlink true ["out2", "r2"]),
   (["out2"], .dir true),
   (["out2", "r2"], .dir true),
   (["out2", "r2", "x"], .file),
   (["lnk"], .symlink true ["src", "d"]),
   (["tgt"], .dir true)]

/-- Counterexample to C7 as stated: the symlink `tgt/zz` resolves (with
ancestor fallback) to `out2/r2/x`, outside the canonical source root —
yet the run removes it and reports it, because removing `tgt/A` first
changes what `zz`'s destination resolves to at visit time. -/
theorem c7_counterexample :
    fsFind exFs7 ["tgt", "zz"] = some (.symlink true ["lnk", "m", "x"]) ∧
    ¬ ["src"] <+: canonicalize_with_ancestor_fallback exFs7
        (destPath ["tgt", "zz"] true ["lnk", "m", "x"]) ∧
    unlink_targets exFs7 ["src"] ["tgt"] false =
      .ok ([.removed ["tgt", "A"], .removed ["tgt", "zz"]], exFs7after) :=
  ⟨rfl, by decide, rfl⟩

/-- The target-side symlink keys: the candidates for removal by a walk
below `dir`. -/
def symKeysUnder (fs : Fs) (dir : FsPath) : List FsPath :=
  fs.filterMap fun b =>
    match b.2 with
    | .symlink _ _ => if dir <+: b.1 ∧ dir ≠ b.1 then some b.1 else none
    | _ => none

theorem fsFind_some_mem {fs : Fs} {q : FsPath} {v : FsNode}
    (h : fsFind fs q = some v) : (q, v) ∈ fs := by
  induction fs with
  | nil => cases h
  | cons b rest ih =>
    rcases b with ⟨k, w⟩
    by_cases hk : k = q
    · subst hk
      simp only [fsFind, if_pos rfl] at h
      cases h
      exact List.mem_cons_self _ _
    · simp only [fsFind, if_neg hk] at h
      exact List.mem_cons_of_mem _ (ih h)

theorem mem_symKeysUnder {fs : Fs} {dir q : FsPath} {ab : Bool} {d : List String}
    (hf : fsFind fs q = some (.symlink ab d)) (hsu : strictUnder dir q) :
    q ∈ symKeysUnder fs dir :=
  List.mem_filterMap.mpr ⟨(q, .symlink ab d), fsFind_some_mem hf,
    by simp [if_pos, hsu.1, hsu.2]⟩

/-- Any erasure of target-side symlinks equals the erasure of one of the
finitely many sublists of `symKeysUnder`. -/
theorem eraseKeys_reduce_sublist (fs : Fs) (dir : FsPath) (T : List FsPath)
    (hT : ∀ q ∈ T, strictUnder dir q ∧ ∃ ab d, fsFind fs q = some (.symlink ab d)) :
    ∃ T2 ∈ (symKeysUnder fs dir).sublists, eraseKeys fs T = eraseKeys fs T2 := by
  refine ⟨(symKeysUnder fs dir).filter (fun q => decide (q ∈ T)), ?_, ?_⟩
  · exact List.mem_sublists.mpr (List.filter_sublist _)
  · unfold eraseKeys
    apply List.filter_congr
    intro b _
    by_cases hb : b.1 ∈ T
    · rcases hT b.1 hb with ⟨hsu, ab, d, hf⟩
      have hmem : b.1 ∈ (symKeysUnder fs dir).filter (fun q => decide (q ∈ T)) :=
        List.mem_filter.mpr ⟨mem_symKeysUnder hf hsu, by simp [hb]⟩
      simp [hb, hmem]
    · have hmem : b.1 ∉ (symKeysUnder fs dir).filter (fun q => decide (q ∈ T)) := by
        intro hx
        exact hb (by simpa using (List.mem_filter.mp hx).2)
      simp [hb, hmem]

/-- C7 amended: a symlink below the target root whose destination
resolves outside the canonical source root — in the initial state and in
every state obtained from it by removing target-side symlinks (so in
particular its resolution does not pass through links the run removes) —
is left untouched by `unlink_targets` and receives no outcome, neither
`Removed` nor `Skipped`. -/
theorem c7_amended_outside_source_untouched (fs : Fs) (src tgt : FsPath)
    (dry : Bool) (csrc : FsPath) (acts : List UnlinkAction) (fs2 : Fs)
    (p : FsPath) (ab : Bool) (d : List String)
    (htgt : fsFind fs tgt = none ∨ ∃ b, fsFind fs tgt = some (.dir b))
    (hsrc : canonicalize fs src = some csrc)
    (hp : fsFind fs p = some (.symlink ab d))
    (hstable : ∀ T2 ∈ (symKeysUnder fs tgt).sublists,
      ¬ csrc <+: canonicalize_with_ancestor_fallback (eraseKeys fs T2)
        (destPath p ab d))
    (hrun : unlink_targets fs src tgt dry = .ok (acts, fs2)) :
    (∀ a ∈ acts, a.upath ≠ p) ∧ fsFind fs2 p = fsFind fs p := by
  simp only [unlink_targets] at hrun
  rw [hsrc] at hrun
  rcases walk_shape csrc dry (fsDepth fs + 3) tgt fs [] htgt with ⟨st2, hok, hsh⟩
  simp only [hok] at hrun
  cases hrun
  rcases hsh with ⟨T, new, hfs, hacts, hT, hnew⟩
  have hblock : ∀ T2 : List FsPath, (∀ q2 ∈ T2, walkRemovable fs tgt q2) →
      ¬ actJustified csrc (eraseKeys fs T2) p := by
    intro T2 hT2 hj
    rcases hj with ⟨ab2, d2, hf2, hpre⟩
    rw [fsFind_eraseKeys] at hf2
    by_cases hpT2 : p ∈ T2
    · rw [if_pos hpT2] at hf2; cases hf2
    · rw [if_neg hpT2] at hf2
      rw [hp] at hf2
      injection hf2 with hf3
      cases hf3
      rcases eraseKeys_reduce_sublist fs tgt T2
          (fun q hq => ⟨(hT2 q hq).1, (hT2 q hq).2.2⟩) with ⟨T3, hT3s, hT3e⟩
      rw [hT3e] at hpre
      exact hstable T3 hT3s hpre
  constructor
  · intro a ha hap
    have ha2 : a ∈ st2.acts := mem_sortActs.mp ha
    rw [hacts] at ha2
    simp only [List.append_nil] at ha2
    rcases hnew a ha2 with ⟨_, T2, hT2, hj⟩
    rw [hap] at hj
    exact hblock T2 hT2 hj
  · rw [hfs, fsFind_eraseKeys, if_neg]
    intro hpT
    rcases hT p hpT with ⟨_, T2, hT2, hj⟩
    exact hblock T2 hT2 hj

def wfs7 : Fs :=
  [([], .dir true), (["src"], .dir true), (["out"], .dir true),
   (["out", "f"], .file), (["t"], .dir true),
   (["t", "keep"], .symlink true ["out", "f"]),
   (["t", "go"], .symlink true ["src"])]

def wfs7after : Fs :=
  [([], .dir true), (["src"], .dir true), (["out"], .dir true),
   (["out", "f"], .file), (["t"], .dir true),
   (["t", "keep"], .symlink true ["out", "f"])]

/-- Witness for C7 amended: `t/keep` resolves to `out/f` under every
erasure of target-side symlinks, so it is untouched while `t/go` is
removed. -/
theorem c7_witness :
    unlink_targets wfs7 ["src"] ["t"] false =
      .ok ([.removed ["t", "go"]], wfs7after) ∧
    (∀ a ∈ [UnlinkAction.removed ["t", "go"]], a.upath ≠ ["t", "keep"]) ∧
    fsFind wfs7after ["t", "keep"] = fsFind wfs7 ["t", "keep"] :=
  ⟨rfl,
   c7_amended_outside_source_untouched wfs7 ["src"] ["t"] false ["src"]
     [.removed ["t", "go"]] wfs7after ["t", "keep"] true ["out", "f"]
     (Or.inr ⟨true, rfl⟩) rfl rfl (by decide) rfl⟩

/-! ### C2: the round trip `create_link` then `unlink_targets` -/

theorem childNames_mem {fs : Fs} {dir : FsPath} {n : String} {v : FsNode}
    (h : fsFind fs (dir ++ [n]) = some v) : n ∈ childNames fs dir := by
  unfold childNames
  rw [List.mem_dedup]
  refine List.mem_filterMap.mpr ⟨(dir ++ [n], v), fsFind_some_mem h, ?_⟩
  rw [if_pos ⟨by simp, List.prefix_append dir [n]⟩]
  simp

/-- Everything a single visitor call can do to the state: leave the
filesystem alone or erase the visited symlink binding; outcomes are only
ever prepended. -/
theorem visitEntry_out (csrc : FsPath) (dry : Bool) (st : UState) (p : FsPath) :
    ((visitEntry csrc dry st p).fs = st.fs ∨
      ((visitEntry csrc dry st p).fs = eraseKeys st.fs [p] ∧
        ∃ ab d, fsFind st.fs p = some (.symlink ab d))) ∧
    ∃ na, (visitEntry csrc dry st p).acts = na ++ st.acts := by
  cases hf : fsFind st.fs p with
  | none =>
    have hv : visitEntry csrc dry st p = st := by
      simp only [visitEntry, hf]
    rw [hv]
    exact ⟨Or.inl rfl, [], rfl⟩
  | some node =>
    cases node with
    | file =>
      have hv : visitEntry csrc dry st p = st := by
        simp only [visitEntry, hf]
      rw [hv]
      exact ⟨Or.inl rfl, [], rfl⟩
    | dir b =>
      have hv : visitEntry csrc dry st p = st := by
        simp only [visitEntry, hf]
      rw [hv]
      exact ⟨Or.inl rfl, [], rfl⟩
    | symlink ab d =>
      by_cases hres :
          ¬ List.isPrefixOf csrc
            (canonicalize_with_ancestor_fallback st.fs (destPath p ab d)) = true
      · have hv : visitEntry csrc dry st p = st := by
          simp only [visitEntry, hf]
          rw [if_pos hres]
        rw [hv]
        exact ⟨Or.inl rfl, [], rfl⟩
      · cases dry with
        | true =>
          have hv : visitEntry csrc true st p =
              { st with acts := .removed p :: st.acts } := by
            simp only [visitEntry, hf]
            rw [if_neg hres]
            simp
          rw [hv]
          exact ⟨Or.inl rfl, [.removed p], rfl⟩
        | false =>
          have hre : remove_entry st.fs p = some (eraseKey st.fs p) := by
            rw [remove_entry, hf]
          have hv : visitEntry csrc false st p =
              { fs := eraseKey st.fs p, acts := .removed p :: st.acts } := by
            simp only [visitEntry, hf]
            rw [if_neg hres]
            simp only [Bool.false_eq_true, if_false, hre]
          rw [hv]
          exact ⟨Or.inr ⟨by rw [eraseKey_eq_eraseKeys], ab, d, rfl⟩,
            [.removed p], rfl⟩

/-- Invariant before the target link has been visited: the state is the
base filesystem minus some removed symlinks, none of them the link. -/
def ReachPre (FS : Fs) (P : FsPath → Prop) (tp : FsPath) (st : UState) : Prop :=
  ∃ T, st.fs = eraseKeys FS T ∧ (∀ q ∈ T, P q) ∧ tp ∉ T

/-- Invariant after the target link has been visited: it has been erased
and its `Removed` outcome recorded. -/
def ReachPost (FS : Fs) (P : FsPath → Prop) (tp : FsPath) (st : UState) : Prop :=
  ∃ T, st.fs = eraseKeys FS T ∧ (∀ q ∈ T, P q) ∧ tp ∈ T ∧
    UnlinkAction.removed tp ∈ st.acts

theorem ReachPost_maintain {csrc : FsPath} {FS : Fs} {P : FsPath → Prop}
    {tp dir : FsPath} {st st2 : UState}
    (hP : ∀ q, strictUnder dir q →
      (∃ ab2 d2, fsFind FS q = some (.symlink ab2 d2)) → P q)
    (hpost : ReachPost FS P tp st)
    (hsh : WalkShape csrc st.fs dir st.acts st2) :
    ReachPost FS P tp st2 := by
  rcases hpost with ⟨T, hfs, hTP, htpT, hact⟩
  rcases hsh with ⟨T2, new, hfs2, hacts2, hT2, _⟩
  refine ⟨T2 ++ T, ?_, ?_, List.mem_append.mpr (Or.inr htpT), ?_⟩
  · rw [hfs2, hfs, eraseKeys_eraseKeys]
  · intro q hq
    rcases List.mem_append.mp hq with hq | hq
    · have h3 := (hT2 q hq).1
      rw [hfs] at h3
      have h4 := walkRemovable_of_erase h3
      exact hP q h4.1 h4.2.2
    · exact hTP q hq
  · rw [hacts2]
    exact List.mem_append.mpr (Or.inr hact)

theorem walkChildren_reach (csrc : FsPath) (FS : Fs) (P : FsPath → Prop)
    (tp dir : FsPath) (n : String)
    (visitDir : FsPath → UState → Except String UState)
    (hP : ∀ q, strictUnder dir q →
      (∃ ab2 d2, fsFind FS q = some (.symlink ab2 d2)) → P q)
    (HvdShape : ∀ n2 (st1 : UState) b,
      fsFind st1.fs (dir ++ [n2]) = some (.dir b) → n2 ≠ ".git" →
      ∃ st2, visitDir (dir ++ [n2]) st1 = .ok st2 ∧
        WalkShape csrc st1.fs (dir ++ [n2]) st1.acts st2)
    (Htp : ∀ n2, n2 ≠ n → ¬ (dir ++ [n2]) <+: tp)
    (Hpay : ∀ st1 : UState, ReachPre FS P tp st1 →
      ∃ st2,
        (match fsFind st1.fs (dir ++ [n]) with
         | some (.symlink _ _) =>
           Except.ok (visitEntry csrc false st1 (dir ++ [n]))
         | some (.dir _) =>
           if n = ".git" then Except.ok st1 else visitDir (dir ++ [n]) st1
         | _ => Except.ok st1) = .ok st2 ∧ ReachPost FS P tp st2) :
    ∀ (ns : List String) (st1 : UState), n ∈ ns → ReachPre FS P tp st1 →
      ∃ st2, walkChildren csrc false visitDir dir ns st1 = .ok st2 ∧
        ReachPost FS P tp st2 := by
  have HvdL : ∀ n2 (st1 : UState) b,
      fsFind st1.fs (dir ++ [n2]) = some (.dir b) → n2 ≠ ".git" →
      ∃ st2, visitDir (dir ++ [n2]) st1 = .ok st2 ∧
        WalkShape csrc st1.fs dir st1.acts st2 := by
    intro n2 st1 b hf hg
    rcases HvdShape n2 st1 b hf hg with ⟨st2, hok, hsh⟩
    exact ⟨st2, hok, walkShape_lift hg hsh⟩
  intro ns
  induction ns with
  | nil => intro st1 hn; cases hn
  | cons n2 ns ih =>
    intro st1 hn hpre
    by_cases hn2 : n2 = n
    · subst hn2
      rcases Hpay st1 hpre with ⟨st15, hstep, hpost⟩
      rcases walkChildren_shape csrc false visitDir dir HvdL ns st15 with
        ⟨st2, hok2, hsh2⟩
      refine ⟨st2, ?_, ReachPost_maintain hP hpost hsh2⟩
      cases hf : fsFind st1.fs (dir ++ [n2]) with
      | none =>
        rw [hf] at hstep
        simp only [] at hstep
        cases hstep
        have hw : walkChildren csrc false visitDir dir (n2 :: ns) st1 =
            walkChildren csrc false visitDir dir ns st1 := by
          simp only [walkChildren, hf]
        rw [hw]
        exact hok2
      | some node =>
        cases node with
        | file =>
          rw [hf] at hstep
          simp only [] at hstep
          cases hstep
          have hw : walkChildren csrc false visitDir dir (n2 :: ns) st1 =
              walkChildren csrc false visitDir dir ns st1 := by
            simp only [walkChildren, hf]
          rw [hw]
          exact hok2
        | symlink ab d =>
          rw [hf] at hstep
          simp only [] at hstep
          cases hstep
          have hw : walkChildren csrc false visitDir dir (n2 :: ns) st1 =
              walkChildren csrc false visitDir dir ns
                (visitEntry csrc false st1 (dir ++ [n2])) := by
            simp only [walkChildren, hf]
          rw [hw]
          exact hok2
        | dir b =>
          rw [hf] at hstep
          simp only [] at hstep
          by_cases hg : n2 = ".git"
          · rw [if_pos hg] at hstep
            cases hstep
            have hw : walkChildren csrc false visitDir dir (n2 :: ns) st1 =
                walkChildren csrc false visitDir dir ns st1 := by
              simp only [walkChildren, hf, if_pos hg]
            rw [hw]
            exact hok2
          · rw [if_neg hg] at hstep
            have hw : walkChildren csrc false visitDir dir (n2 :: ns) st1 =
                walkChildren csrc false visitDir dir ns st15 := by
              simp only [walkChildren, hf, if_neg hg, hstep]
            rw [hw]
            exact hok2
    · have hmem : n ∈ ns := by
        rcases List.mem_cons.mp hn with h | h
        · exact absurd h.symm hn2
        · exact h
      cases hf : fsFind st1.fs (dir ++ [n2]) with
      | none =>
        have hw : walkChildren csrc false visitDir dir (n2 :: ns) st1 =
            walkChildren csrc false visitDir dir ns st1 := by
          simp only [walkChildren, hf]
        rw [hw]
        exact ih st1 hmem hpre
      | some node =>
        cases node with
        | file =>
          have hw : walkChildren csrc false visitDir dir (n2 :: ns) st1 =
              walkChildren csrc false visitDir dir ns st1 := by
            simp only [walkChildren, hf]
          rw [hw]
          exact ih st1 hmem hpre
        | symlink ab d =>
          have hw : walkChildren csrc false visitDir dir (n2 :: ns) st1 =
              walkChildren csrc false visitDir dir ns
                (visitEntry csrc false st1 (dir ++ [n2])) := by
            simp only [walkChildren, hf]
          rw [hw]
          have hpre2 : ReachPre FS P tp
              (visitEntry csrc false st1 (dir ++ [n2])) := by
            rcases hpre with ⟨T, hfs, hTP, htp⟩
            rcases (visitEntry_out csrc false st1 (dir ++ [n2])).1 with
              hfs2 | ⟨hfs2, ab2, d2, hsym⟩
            · exact ⟨T, by rw [hfs2, hfs], hTP, htp⟩
            · refine ⟨(dir ++ [n2]) :: T, ?_, ?_, ?_⟩
              · rw [hfs2, hfs, eraseKeys_eraseKeys]
                rfl
              · intro q hq
                rcases List.mem_cons.mp hq with heq | hq
                · subst heq
                  rw [hfs, fsFind_eraseKeys] at hsym
                  by_cases hqT : (dir ++ [n2]) ∈ T
                  · rw [if_pos hqT] at hsym; cases hsym
                  · rw [if_neg hqT] at hsym
                    exact hP (dir ++ [n2]) (strictUnder_child dir n2)
                      ⟨ab2, d2, hsym⟩
                · exact hTP q hq
              · intro hmem2
                rcases List.mem_cons.mp hmem2 with heq | hmem2
                · exact Htp n2 hn2 (heq ▸ List.prefix_refl _)
                · exact htp hmem2
          exact ih _ hmem hpre2
        | dir b =>
          by_cases hg : n2 = ".git"
          · have hw : walkChildren csrc false visitDir dir (n2 :: ns) st1 =
                walkChildren csrc false visitDir dir ns st1 := by
              simp only [walkChildren, hf, if_pos hg]
            rw [hw]
            exact ih st1 hmem hpre
          · rcases HvdShape n2 st1 b hf hg with ⟨st15, hok15, hsh15⟩
            have hw : walkChildren csrc false visitDir dir (n2 :: ns) st1 =
                walkChildren csrc false visitDir dir ns st15 := by
              simp only [walkChildren, hf, if_neg hg, hok15]
            rw [hw]
            have hpre2 : ReachPre FS P tp st15 := by
              rcases hpre with ⟨T, hfs, hTP, htp⟩
              rcases hsh15 with ⟨T2, new, hfs2, hacts2, hT2, _⟩
              refine ⟨T2 ++ T, by rw [hfs2, hfs, eraseKeys_eraseKeys], ?_, ?_⟩
              · intro q hq
                rcases List.mem_append.mp hq with hq | hq
                · have h3 := (hT2 q hq).1
                  rw [hfs] at h3
                  have h4 := walkRemovable_of_erase h3
                  exact hP q (strictUnder_lift h4.1) h4.2.2
                · exact hTP q hq
              · intro hmem2
                rcases List.mem_append.mp hmem2 with hq | hq
                · exact Htp n2 hn2 ((hT2 tp hq).1.1.1)
                · exact htp hq
            exact ih st15 hmem hpre2

/-- Reaching lemma: a symlink bound at `dir ++ rel`, reachable through
readable directories with no `.git` component, whose destination
resolves under `csrc` in every reachable state, is removed by the walk
and its `Removed` outcome recorded. -/
theorem walk_reach (csrc : FsPath) (FS : Fs) (P : FsPath → Prop)
    (ab : Bool) (d : List String)
    (hPsym : ∀ q, P q → ∃ ab2 d2, fsFind FS q = some (.symlink ab2 d2)) :
    ∀ (rel : List String) (fuel : Nat) (dir : FsPath) (st : UState),
      rel ≠ [] →
      rel.length + 1 ≤ fuel →
      ".git" ∉ rel.dropLast →
      (∀ j, 0 < j → j < rel.length →
        fsFind FS (dir ++ rel.take j) = some (.dir true)) →
      fsFind FS dir = some (.dir true) →
      fsFind FS (dir ++ rel) = some (.symlink ab d) →
      (∀ q, strictUnder dir q →
        (∃ ab2 d2, fsFind FS q = some (.symlink ab2 d2)) → P q) →
      (∀ T, (∀ q ∈ T, P q) →
        csrc <+: canonicalize_with_ancestor_fallback (eraseKeys FS T)
          (destPath (dir ++ rel) ab d)) →
      ReachPre FS P (dir ++ rel) st →
      ∃ st2, walk_symlinks csrc false fuel dir st = .ok st2 ∧
        ReachPost FS P (dir ++ rel) st2 := by
  intro rel
  induction rel with
  | nil => intro fuel dir st h; exact absurd rfl h
  | cons n rel2 ih =>
    intro fuel dir st _ hfuel hgit hchain hdir hsym hP HJ hpre
    cases fuel with
    | zero => omega
    | succ fuel =>
      rcases hpre with ⟨T, hfs, hTP, htpT⟩
      have hdirT : dir ∉ T := by
        intro hmem
        rcases hPsym dir (hTP dir hmem) with ⟨ab2, d2, hcon⟩
        rw [hdir] at hcon
        cases hcon
      have hdir1 : fsFind st.fs dir = some (.dir true) := by
        rw [hfs, fsFind_eraseKeys, if_neg hdirT, hdir]
      have hw : walk_symlinks csrc false (fuel + 1) dir st =
          walkChildren csrc false (walk_symlinks csrc false fuel) dir
            (childNames st.fs dir) st := by
        conv_lhs => rw [walk_symlinks]
        rw [hdir1]
      have hchild1 : dir ++ [n] ∉ T → ∃ v, fsFind st.fs (dir ++ [n]) = some v := by
        intro hnT
        cases rel2 with
        | nil =>
          refine ⟨.symlink ab d, ?_⟩
          rw [hfs, fsFind_eraseKeys, if_neg hnT]
          exact hsym
        | cons r0 rs =>
          refine ⟨.dir true, ?_⟩
          rw [hfs, fsFind_eraseKeys, if_neg hnT]
          exact hchain 1 (by omega) (by simp)
      have hchildT : dir ++ [n] ∉ T := by
        cases rel2 with
        | nil => simpa using htpT
        | cons r0 rs =>
          intro hmem
          rcases hPsym _ (hTP _ hmem) with ⟨ab2, d2, hcon⟩
          have h1 : fsFind FS (dir ++ [n]) = some (.dir true) :=
            hchain 1 (by omega) (by simp)
          rw [h1] at hcon
          simp at hcon
      rcases hchild1 hchildT with ⟨v, hv⟩
      have hns : n ∈ childNames st.fs dir := childNames_mem hv
      have Htp : ∀ n2, n2 ≠ n → ¬ (dir ++ [n2]) <+: (dir ++ n :: rel2) := by
        intro n2 hne hcon
        rcases hcon with ⟨r, hr⟩
        rw [List.append_assoc] at hr
        have h2 := List.append_cancel_left hr
        simp only [List.singleton_append, List.cons.injEq] at h2
        exact hne h2.1
      have Hpay : ∀ st1 : UState, ReachPre FS P (dir ++ n :: rel2) st1 →
          ∃ st2,
            (match fsFind st1.fs (dir ++ [n]) with
             | some (.symlink _ _) =>
               Except.ok (visitEntry csrc false st1 (dir ++ [n]))
             | some (.dir _) =>
               if n = ".git" then Except.ok st1
               else walk_symlinks csrc false fuel (dir ++ [n]) st1
             | _ => Except.ok st1) = .ok st2 ∧
            ReachPost FS P (dir ++ n :: rel2) st2 := by
        intro st1 hpre1
        rcases hpre1 with ⟨T1, hfs1, hTP1, htpT1⟩
        cases rel2 with
        | nil =>
          have htpT1b : dir ++ [n] ∉ T1 := htpT1
          have hfind1 : fsFind st1.fs (dir ++ [n]) = some (.symlink ab d) := by
            rw [hfs1, fsFind_eraseKeys, if_neg htpT1b]
            exact hsym
          rw [hfind1]
          have hbool : List.isPrefixOf csrc
              (canonicalize_with_ancestor_fallback st1.fs
                (destPath (dir ++ [n]) ab d)) = true := by
            rw [List.isPrefixOf_iff_prefix, hfs1]
            have := HJ T1 hTP1
            simpa using this
          have hfind1b : fsFind st1.fs (dir ++ [n]) = some (.symlink ab d) :=
            hfind1
          have hre : remove_entry st1.fs (dir ++ [n]) =
              some (eraseKey st1.fs (dir ++ [n])) := by
            rw [remove_entry, hfind1b]
          have hv2 : visitEntry csrc false st1 (dir ++ [n]) =
              { fs := eraseKey st1.fs (dir ++ [n]),
                acts := .removed (dir ++ [n]) :: st1.acts } := by
            simp only [visitEntry, hfind1b]
            rw [if_neg (not_not_intro hbool),
              if_neg (by simp : ¬ (false = true)), hre]
          refine ⟨_, rfl, ?_⟩
          rw [hv2]
          refine ⟨(dir ++ [n]) :: T1, ?_, ?_, List.mem_cons_self _ _, ?_⟩
          · simp only [hfs1, eraseKey_eq_eraseKeys, eraseKeys_eraseKeys]
            rfl
          · intro q hq
            rcases List.mem_cons.mp hq with heq | hq
            · subst heq
              exact hP _ (strictUnder_child dir n) ⟨ab, d, hsym⟩
            · exact hTP1 q hq
          · simp
        | cons r0 rs =>
          have hng : n ≠ ".git" := by
            intro hcon
            apply hgit
            rw [hcon]
            simp [List.dropLast_cons₂]
          have hchildT1 : dir ++ [n] ∉ T1 := by
            intro hmem
            rcases hPsym _ (hTP1 _ hmem) with ⟨ab2, d2, hcon⟩
            have h1 : fsFind FS (dir ++ [n]) = some (.dir true) :=
              hchain 1 (by omega) (by simp)
            rw [h1] at hcon
            simp at hcon
          have hfind1 : fsFind st1.fs (dir ++ [n]) = some (.dir true) := by
            rw [hfs1, fsFind_eraseKeys, if_neg hchildT1]
            exact hchain 1 (by omega) (by simp)
          rw [hfind1]
          rw [if_neg hng]
          have hrw : (dir ++ [n]) ++ (r0 :: rs) = dir ++ n :: r0 :: rs := by
            simp
          rcases ih fuel (dir ++ [n]) st1 (by simp) (by simp at hfuel ⊢; omega)
            (by
              intro hcon
              apply hgit
              simp only [List.dropLast_cons₂, List.mem_cons] at hcon ⊢
              exact Or.inr hcon)
            (by
              intro j hj0 hjlen
              have h2 := hchain (j + 1) (by omega) (by simp at hjlen ⊢; omega)
              rw [← h2]
              congr 1
              exact (List.append_cons dir n (List.take j (r0 :: rs))).symm)
            (hchain 1 (by omega) (by simp))
            (by rw [hrw]; exact hsym)
            (fun q hq hsq => hP q (strictUnder_lift hq) hsq)
            (by rw [hrw]; exact HJ)
            (by
              rw [hrw]
              exact ⟨T1, hfs1, hTP1, htpT1⟩) with ⟨st2, hok, hpost⟩
          refine ⟨st2, hok, ?_⟩
          rw [hrw] at hpost
          exact hpost
      rcases walkChildren_reach csrc FS P (dir ++ n :: rel2) dir n
          (walk_symlinks csrc false fuel) hP
          (fun n2 st1 b hf hg =>
            walk_shape csrc false fuel (dir ++ [n2]) st1.fs st1.acts
              (Or.inr ⟨b, hf⟩))
          Htp Hpay (childNames st.fs dir) st hns
          ⟨T, hfs, hTP, htpT⟩ with ⟨st2, hok, hpost⟩
      exact ⟨st2, by rw [hw]; exact hok, hpost⟩

/-! ### Clean resolution: a path whose ancestors are plain directories
canonicalizes to itself, and fails exactly when its final binding is
missing. -/

theorem canonicalizeAux_clean (fs : Fs) :
    ∀ (comps : List String) (fuel : Nat) (acc : FsPath),
      comps.length + 1 ≤ fuel →
      (∀ c ∈ comps, c ≠ "." ∧ c ≠ "..") →
      (∀ k, k + 1 < comps.length →
        ∃ b, fsFind fs (acc ++ comps.take (k + 1)) = some (.dir b)) →
      (comps ≠ [] →
        (∃ b, fsFind fs (acc ++ comps) = some (.dir b)) ∨
          fsFind fs (acc ++ comps) = some .file) →
      canonicalizeAux fs fuel acc comps = some (acc ++ comps) := by
  intro comps
  induction comps with
  | nil =>
    intro fuel acc hfuel _ _ _
    cases fuel with
    | zero => omega
    | succ f => simp [canonicalizeAux]
  | cons c cs ih =>
    intro fuel acc hfuel hnorm hchain hlast
    cases fuel with
    | zero => simp only [List.length_cons] at hfuel; omega
    | succ f =>
      have hc := hnorm c (List.mem_cons_self c cs)
      rw [canonicalizeAux, if_neg hc.1, if_neg hc.2]
      cases cs with
      | nil =>
        rcases hlast (by simp) with ⟨b, hb⟩ | hb
        · rw [hb]
          have hf1 : 1 ≤ f := by simp only [List.length_cons] at hfuel; omega
          cases f with
          | zero => omega
          | succ f2 => simp [canonicalizeAux]
        · rw [hb]
          rfl
      | cons c2 cs2 =>
        rcases hchain 0 (by simp only [List.length_cons]; omega) with ⟨b, hb⟩
        have hb' : fsFind fs (acc ++ [c]) = some (.dir b) := hb
        rw [hb']
        have hfuel2 : (c2 :: cs2).length + 1 ≤ f := by
          simp only [List.length_cons] at hfuel ⊢; omega
        have hn2 : ∀ x ∈ c2 :: cs2, x ≠ "." ∧ x ≠ ".." :=
          fun x hx => hnorm x (List.mem_cons_of_mem c hx)
        have hch2 : ∀ k, k + 1 < (c2 :: cs2).length →
            ∃ b2, fsFind fs ((acc ++ [c]) ++ (c2 :: cs2).take (k + 1)) =
              some (.dir b2) := by
          intro k hk
          rcases hchain (k + 1) (by simp only [List.length_cons] at hk ⊢; omega)
            with ⟨b2, hb2⟩
          refine ⟨b2, ?_⟩
          have he : (acc ++ [c]) ++ (c2 :: cs2).take (k + 1) =
              acc ++ (c :: c2 :: cs2).take (k + 1 + 1) :=
            (List.append_cons acc c ((c2 :: cs2).take (k + 1))).symm
          rw [he]
          exact hb2
        have hl2 : (c2 :: cs2) ≠ [] →
            (∃ b2, fsFind fs ((acc ++ [c]) ++ (c2 :: cs2)) = some (.dir b2)) ∨
              fsFind fs ((acc ++ [c]) ++ (c2 :: cs2)) = some .file := by
          intro _
          have he : (acc ++ [c]) ++ (c2 :: cs2) = acc ++ c :: c2 :: cs2 :=
            (List.append_cons acc c (c2 :: cs2)).symm
          rw [he]
          exact hlast (by simp)
        have hrec := ih f (acc ++ [c]) hfuel2 hn2 hch2 hl2
        have he : (acc ++ [c]) ++ (c2 :: cs2) = acc ++ c :: c2 :: cs2 :=
          (List.append_cons acc c (c2 :: cs2)).symm
        rw [he] at hrec
        exact hrec

theorem canonicalize_clean (fs : Fs) (p : List String)
    (hnorm : ∀ c ∈ p, c ≠ "." ∧ c ≠ "..")
    (hchain : ∀ k, k + 1 < p.length →
      ∃ b, fsFind fs (p.take (k + 1)) = some (.dir b))
    (hlast : p ≠ [] →
      (∃ b, fsFind fs p = some (.dir b)) ∨ fsFind fs p = some .file) :
    canonicalize fs p = some p := by
  have h := canonicalizeAux_clean fs p (resFuel fs p) []
    (by unfold resFuel; omega)
    hnorm
    (by intro k hk; simpa using hchain k hk)
    (by intro hne; simpa using hlast hne)
  simpa [canonicalize] using h

theorem canonicalizeAux_none (fs : Fs) :
    ∀ (comps : List String) (fuel : Nat) (acc : FsPath),
      comps ≠ [] →
      (∀ c ∈ comps, c ≠ "." ∧ c ≠ "..") →
      (∀ k, k + 1 < comps.length →
        fsFind fs (acc ++ comps.take (k + 1)) = none ∨
          ∃ b, fsFind fs (acc ++ comps.take (k + 1)) = some (.dir b)) →
      fsFind fs (acc ++ comps) = none →
      canonicalizeAux fs fuel acc comps = none := by
  intro comps
  induction comps with
  | nil => intro fuel acc h; exact absurd rfl h
  | cons c cs ih =>
    intro fuel acc _ hnorm hchain hlast
    cases fuel with
    | zero => rfl
    | succ f =>
      have hc := hnorm c (List.mem_cons_self c cs)
      rw [canonicalizeAux, if_neg hc.1, if_neg hc.2]
      cases cs with
      | nil =>
        have hl : fsFind fs (acc ++ [c]) = none := hlast
        rw [hl]
      | cons c2 cs2 =>
        rcases hchain 0 (by simp only [List.length_cons]; omega) with h0 | ⟨b, h0⟩
        · have h0' : fsFind fs (acc ++ [c]) = none := h0
          rw [h0']
        · have h0' : fsFind fs (acc ++ [c]) = some (.dir b) := h0
          rw [h0']
          have hn2 : ∀ x ∈ c2 :: cs2, x ≠ "." ∧ x ≠ ".." :=
            fun x hx => hnorm x (List.mem_cons_of_mem c hx)
          have hch2 : ∀ k, k + 1 < (c2 :: cs2).length →
              fsFind fs ((acc ++ [c]) ++ (c2 :: cs2).take (k + 1)) = none ∨
                ∃ b2, fsFind fs ((acc ++ [c]) ++ (c2 :: cs2).take (k + 1)) =
                  some (.dir b2) := by
            intro k hk
            have he : (acc ++ [c]) ++ (c2 :: cs2).take (k + 1) =
                acc ++ (c :: c2 :: cs2).take (k + 1 + 1) :=
              (List.append_cons acc c ((c2 :: cs2).take (k + 1))).symm
            rw [he]
            exact hchain (k + 1) (by simp only [List.length_cons] at hk ⊢; omega)
          have hl2 : fsFind fs ((acc ++ [c]) ++ (c2 :: cs2)) = none := by
            have he : (acc ++ [c]) ++ (c2 :: cs2) = acc ++ c :: c2 :: cs2 :=
              (List.append_cons acc c (c2 :: cs2)).symm
            rw [he]
            exact hlast
          exact ih f (acc ++ [c]) (by simp) hn2 hch2 hl2

theorem canonicalize_none_of_parents (fs : Fs) (p : FsPath)
    (hne : p ≠ [])
    (hnorm : ∀ c ∈ p, c ≠ "." ∧ c ≠ "..")
    (hmid : ∀ k, k + 1 < p.length →
      fsFind fs (p.take (k + 1)) = none ∨
        ∃ b, fsFind fs (p.take (k + 1)) = some (.dir b))
    (hfind : fsFind fs p = none) :
    canonicalize fs p = none := by
  have h := canonicalizeAux_none fs p (resFuel fs p) [] hne hnorm
    (by intro k hk; simpa using hmid k hk)
    (by simpa using hfind)
  simpa [canonicalize] using h

theorem normLexGo_of_norm :
    ∀ (p : List String), (∀ c ∈ p, c ≠ "." ∧ c ≠ "..") →
      ∀ acc : FsPath,
        List.foldl
          (fun acc c =>
            if c = "." then acc
            else if c = ".." then acc.dropLast
            else acc ++ [c]) acc p = acc ++ p := by
  intro p
  induction p with
  | nil => intro _ acc; simp
  | cons c cs ih =>
    intro hnorm acc
    have hc := hnorm c (List.mem_cons_self c cs)
    rw [List.foldl_cons, if_neg hc.1, if_neg hc.2,
      ih (fun x hx => hnorm x (List.mem_cons_of_mem c hx)) (acc ++ [c])]
    exact (List.append_cons acc c cs).symm

theorem normalize_lexically_of_norm (p : List String)
    (hnorm : ∀ c ∈ p, c ≠ "." ∧ c ≠ "..") :
    normalize_lexically p = p := by
  unfold normalize_lexically
  rw [normLexGo_of_norm p hnorm []]
  simp

theorem cwaf_of_canonicalize (fs : Fs) (p r : List String)
    (hn : normalize_lexically p = p)
    (hc : canonicalize fs p = some r) :
    canonicalize_with_ancestor_fallback fs p = r := by
  simp only [canonicalize_with_ancestor_fallback]
  rw [hn]
  cases p with
  | nil => simp [cwafGo, hc]
  | cons c cs =>
    show cwafGo fs (c :: cs) (cs.length + 1) = r
    rw [cwafGo]
    have ht : (c :: cs).take (cs.length + 1) = c :: cs :=
      List.take_length (c :: cs)
    rw [ht, hc]
    show r ++ (c :: cs).drop (cs.length + 1) = r
    have hd : (c :: cs).drop (cs.length + 1) = [] := List.drop_length (c :: cs)
    rw [hd]
    simp

/-! ### Pointwise behaviour of the erasure and creation primitives -/

theorem fsFind_filter (P : FsPath × FsNode → Bool) :
    ∀ (fs : Fs) (r : FsPath), (∀ v, P (r, v) = true) →
      fsFind (fs.filter P) r = fsFind fs r := by
  intro fs
  induction fs with
  | nil => intro r _; rfl
  | cons b fs ih =>
    intro r hP
    rcases b with ⟨q, v⟩
    by_cases hb : q = r
    · subst hb
      rw [List.filter_cons, if_pos (hP v)]
      simp [fsFind]
    · by_cases hPb : P (q, v) = true
      · rw [List.filter_cons, if_pos hPb]
        simp only [fsFind, if_neg hb]
        exact ih r hP
      · rw [List.filter_cons, if_neg hPb]
        simp only [fsFind, if_neg hb]
        exact ih r hP

theorem fsFind_eraseTree {fs : Fs} {p r : FsPath} (h : ¬ p <+: r) :
    fsFind (eraseTree fs p) r = fsFind fs r :=
  fsFind_filter _ fs r (fun _ => by simp [h])

theorem fsFind_eraseKeyNe {fs : Fs} {p r : FsPath} (h : r ≠ p) :
    fsFind (eraseKey fs p) r = fsFind fs r := by
  rw [eraseKey_eq_eraseKeys, fsFind_eraseKeys]
  simp [h]

theorem remove_entry_find (fs : Fs) (p : FsPath) (fs1 : Fs)
    (h : remove_entry fs p = some fs1) :
    ∀ r, ¬ p <+: r → fsFind fs1 r = fsFind fs r := by
  unfold remove_entry at h
  cases hfp : fsFind fs p with
  | none => rw [hfp] at h; cases h
  | some v =>
    rw [hfp] at h
    intro r hr
    have hne : r ≠ p := by intro he; exact hr (by rw [he])
    cases v with
    | file => cases h; exact fsFind_eraseKeyNe hne
    | dir b => cases h; exact fsFind_eraseTree hr
    | symlink ab d => cases h; exact fsFind_eraseKeyNe hne

theorem take_mem_parentChain (p : FsPath) (k : Nat)
    (h0 : 0 < k) (h1 : k < p.length) :
    p.take k ∈ parentChain p := by
  unfold parentChain
  rw [List.mem_map]
  refine ⟨k - 1, ?_, ?_⟩
  · rw [List.mem_range, List.length_dropLast]; omega
  · rw [List.dropLast_eq_take, List.take_take]
    congr 1
    omega

theorem mem_parentChain_shape {p q : FsPath} (h : q ∈ parentChain p) :
    ∃ k, 0 < k ∧ k < p.length ∧ q = p.take k := by
  unfold parentChain at h
  rw [List.mem_map] at h
  rcases h with ⟨k, hk, hq⟩
  rw [List.mem_range, List.length_dropLast] at hk
  refine ⟨k + 1, Nat.succ_pos k, by omega, ?_⟩
  rw [← hq, List.dropLast_eq_take, List.take_take]
  congr 1
  omega

theorem not_prefix_of_mem_parentChain {p q : FsPath}
    (h : q ∈ parentChain p) : ¬ p <+: q := by
  rcases mem_parentChain_shape h with ⟨k, hk0, hkl, hqe⟩
  intro hpre
  have hle := hpre.length_le
  rw [hqe, List.length_take] at hle
  omega

theorem mkChainAux :
    ∀ (qs : List FsPath) (fs : Fs),
      (∀ q ∈ qs, fsFind fs q = none ∨ ∃ b, fsFind fs q = some (.dir b)) →
      ∃ fs2,
        (qs.foldlM
          (fun acc q =>
            match fsFind acc q with
            | none => Except.ok (setNode acc q (.dir true))
            | some (.dir _) => Except.ok acc
            | some _ =>
              (Except.error "Failed to create parent directory" :
                Except String Fs)) fs) = .ok fs2 ∧
        ∀ r, fsFind fs2 r =
          if r ∈ qs ∧ fsFind fs r = none then some (.dir true)
          else fsFind fs r := by
  intro qs
  induction qs with
  | nil =>
    intro fs _
    refine ⟨fs, rfl, ?_⟩
    intro r
    simp
  | cons q qs ih =>
    intro fs hq
    rcases hq q (List.mem_cons_self q qs) with hfq | ⟨b, hfq⟩
    · have hcond : ∀ q2 ∈ qs, fsFind (setNode fs q (.dir true)) q2 = none ∨
          ∃ b2, fsFind (setNode fs q (.dir true)) q2 = some (.dir b2) := by
        intro q2 hq2
        rw [fsFind_setNode]
        by_cases he : q2 = q
        · exact Or.inr ⟨true, by rw [if_pos he]⟩
        · rw [if_neg he]
          exact hq q2 (List.mem_cons_of_mem q hq2)
      rcases ih (setNode fs q (.dir true)) hcond with ⟨fs2, hok, hspec⟩
      refine ⟨fs2, ?_, ?_⟩
      · simp only [List.foldlM_cons]
        rw [hfq]
        exact hok
      · intro r
        rw [hspec r, fsFind_setNode]
        by_cases hr : r = q
        · subst hr
          simp [hfq]
        · rw [if_neg hr]
          simp [List.mem_cons, hr]
    · rcases ih fs (fun q2 hq2 => hq q2 (List.mem_cons_of_mem q hq2))
        with ⟨fs2, hok, hspec⟩
      refine ⟨fs2, ?_, ?_⟩
      · simp only [List.foldlM_cons]
        rw [hfq]
        exact hok
      · intro r
        rw [hspec r]
        by_cases hr : r = q
        · subst hr
          simp [hfq]
        · simp [List.mem_cons, hr]

theorem create_parent_dirs_spec (fs : Fs) (p : FsPath)
    (h : ∀ q ∈ parentChain p,
      fsFind fs q = none ∨ ∃ b, fsFind fs q = some (.dir b)) :
    ∃ fs2, create_parent_dirs fs p = .ok fs2 ∧
      ∀ r, fsFind fs2 r =
        if r ∈ parentChain p ∧ fsFind fs r = none then some (.dir true)
        else fsFind fs r :=
  mkChainAux (parentChain p) fs h

theorem hsp_false_of_parents (fs : Fs) (p : FsPath)
    (hroot : fsFind fs [] = some (.dir true))
    (hpar : ∀ q ∈ parentChain p,
      fsFind fs q = none ∨ ∃ b, fsFind fs q = some (.dir b)) :
    has_symlink_parent fs p = false := by
  unfold has_symlink_parent
  rw [List.any_eq_false]
  intro k hk
  rw [List.mem_range] at hk
  cases Nat.eq_zero_or_pos k with
  | inl h0 =>
    subst h0
    simp [isSymlinkL, hroot]
  | inr hpos =>
    have hm := take_mem_parentChain p k hpos hk
    rcases hpar _ hm with hq | ⟨b, hq⟩
    · simp [isSymlinkL, hq]
    · simp [isSymlinkL, hq]

theorem length_le_fsDepth (fs : Fs) (q : FsPath) (v : FsNode)
    (h : fsFind fs q = some v) : q.length ≤ fsDepth fs := by
  have hm := fsFind_some_mem h
  clear h
  induction fs with
  | nil => simp at hm
  | cons b fs ih =>
    have hd : fsDepth (b :: fs) = max b.1.length (fsDepth fs) := rfl
    rcases List.mem_cons.mp hm with h | h
    · have he : q = b.1 := congrArg Prod.fst h
      rw [hd, he]
      exact Nat.le_max_left _ _
    · rw [hd]
      exact le_trans (ih h) (Nat.le_max_right _ _)

/-- `create_link` with clean, none-or-directory ancestors and a target
that is either absent or forced: it succeeds, installs the symlink, and
changes nothing outside the target binding and its missing ancestors. -/
theorem create_link_success (fs : Fs) (sp tp : FsPath) (force : Bool)
    (htpne : tp ≠ [])
    (hnorm : ∀ c ∈ tp, c ≠ "." ∧ c ≠ "..")
    (hroot : fsFind fs [] = some (.dir true))
    (hpar : ∀ q ∈ parentChain tp,
      fsFind fs q = none ∨ ∃ b, fsFind fs q = some (.dir b))
    (hcase : fsFind fs tp = none ∨ force = true) :
    ∃ a fs1, create_link fs sp tp force false = .ok (a, fs1) ∧
      (a = .created sp tp ∨ a = .overwritten sp tp) ∧
      fsFind fs1 tp = some (.symlink true sp) ∧
      (∀ r, ¬ tp <+: r →
        fsFind fs1 r =
          if r ∈ parentChain tp ∧ fsFind fs r = none then some (.dir true)
          else fsFind fs r) := by
  have hmid : ∀ k, k + 1 < tp.length →
      fsFind fs (tp.take (k + 1)) = none ∨
        ∃ b, fsFind fs (tp.take (k + 1)) = some (.dir b) := by
    intro k hk
    exact hpar _ (take_mem_parentChain tp (k + 1) (Nat.succ_pos k) hk)
  have hsp : has_symlink_parent fs tp = false := hsp_false_of_parents fs tp hroot hpar
  by_cases hex : (pexists fs tp || isSymlinkL fs tp) = true
  · have hnone_absurd : ∀ hv : fsFind fs tp = none, False := by
      intro hv
      have hpx : pexists fs tp = false := by
        unfold pexists
        rw [canonicalize_none_of_parents fs tp htpne hnorm hmid hv]
        rfl
      have hsl : isSymlinkL fs tp = false := by unfold isSymlinkL; rw [hv]
      rw [hpx, hsl] at hex
      simp at hex
    have hforce : force = true := by
      rcases hcase with hnone | hf
      · exact absurd hnone hnone_absurd
      · exact hf
    have hsome : ∃ v, fsFind fs tp = some v := by
      cases hv : fsFind fs tp with
      | some v => exact ⟨v, rfl⟩
      | none => exact absurd hv hnone_absurd
    rcases hsome with ⟨v, hv⟩
    have hre : ∃ fsr, remove_entry fs tp = some fsr := by
      unfold remove_entry
      rw [hv]
      cases v with
      | dir b => exact ⟨_, rfl⟩
      | file => exact ⟨_, rfl⟩
      | symlink ab d => exact ⟨_, rfl⟩
    rcases hre with ⟨fsr, hre⟩
    have hrf : ∀ r, ¬ tp <+: r → fsFind fsr r = fsFind fs r :=
      remove_entry_find fs tp fsr hre
    have hparr : ∀ q ∈ parentChain tp,
        fsFind fsr q = none ∨ ∃ b, fsFind fsr q = some (.dir b) := by
      intro q hq
      rw [hrf q (not_prefix_of_mem_parentChain hq)]
      exact hpar q hq
    rcases create_parent_dirs_spec fsr tp hparr with ⟨fs2, hcpd, hcspec⟩
    refine ⟨.overwritten sp tp, setNode fs2 tp (.symlink true sp),
      ?_, Or.inr rfl, ?_, ?_⟩
    · unfold create_link
      rw [if_pos hex]
      subst hforce
      simp only [Bool.not_true, Bool.false_eq_true, if_false, hsp, hre, hcpd]
    · rw [fsFind_setNode, if_pos rfl]
    · intro r hr
      have hner : r ≠ tp := by intro he; exact hr (by rw [he])
      rw [fsFind_setNode, if_neg hner, hcspec r, hrf r hr]
  · rcases create_parent_dirs_spec fs tp hpar with ⟨fs2, hcpd, hcspec⟩
    refine ⟨.created sp tp, setNode fs2 tp (.symlink true sp),
      ?_, Or.inl rfl, ?_, ?_⟩
    · unfold create_link
      rw [if_neg hex]
      simp only [hsp, Bool.false_eq_true, if_false, hcpd]
    · rw [fsFind_setNode, if_pos rfl]
    · intro r hr
      have hner : r ≠ tp := by intro he; exact hr (by rw [he])
      rw [fsFind_setNode, if_neg hner, hcspec r]

def fsC2 : Fs :=
  [([], FsNode.dir true), (["src"], .dir true), (["src", "f"], .file),
   (["tgt"], .dir true), (["tgt", "f"], .file)]

/-- C2 counterexample: with a pre-existing plain file at the target path
and no `--force`, `create_link` skips, the follow-up `unlink_targets`
yields no `Removed` outcome, and the target path still exists - although
no ancestor of the target is a symlink. -/
theorem c2_counterexample :
    create_link fsC2 ["src", "f"] ["tgt", "f"] false false =
      .ok (.skipped ["tgt", "f"] "already exists (use --force to overwrite)",
        fsC2) ∧
    unlink_targets fsC2 ["src"] ["tgt"] false = .ok ([], fsC2) ∧
    has_symlink_parent fsC2 ["tgt", "f"] = false ∧
    pexists fsC2 ["tgt", "f"] = true :=
  ⟨rfl, rfl, rfl, rfl⟩

/-- C2 amended: the round trip holds for a candidate `src ++ rel` and its
target `tgt ++ rel` when the roots do not nest, the paths are free of
`.`/`..` and of `.git` below the target root, the candidate resolves
through plain readable directories, the target-side ancestors are absent
or directories (inner existing ones readable), and the target path is
absent or `--force` is given: `create_link` then `unlink_targets` yields
`Removed` for the target path, which afterwards no longer exists. -/
theorem c2_amended_round_trip
    (fs : Fs) (src tgt rel : List String) (force : Bool)
    (hrel : rel ≠ [])
    (hnorm_src : ∀ c ∈ src, c ≠ "." ∧ c ≠ "..")
    (hnorm_tgt : ∀ c ∈ tgt, c ≠ "." ∧ c ≠ "..")
    (hnorm_rel : ∀ c ∈ rel, c ≠ "." ∧ c ≠ "..")
    (hgit : ".git" ∉ rel.dropLast)
    (hnest1 : ¬ src <+: tgt) (hnest2 : ¬ tgt <+: src)
    (hroot : fsFind fs [] = some (.dir true))
    (hsrc_chain : ∀ k, k < src.length →
      ∃ b, fsFind fs (src.take (k + 1)) = some (.dir b))
    (hC_mid : ∀ j, 0 < j → j < rel.length →
      ∃ b, fsFind fs (src ++ rel.take j) = some (.dir b))
    (hC_last : (∃ b, fsFind fs (src ++ rel) = some (.dir b)) ∨
      fsFind fs (src ++ rel) = some .file)
    (htgt : fsFind fs tgt = some (.dir true))
    (hpar : ∀ q ∈ parentChain (tgt ++ rel),
      fsFind fs q = none ∨ ∃ b, fsFind fs q = some (.dir b))
    (hpar_inner : ∀ j, 0 < j → j < rel.length →
      fsFind fs (tgt ++ rel.take j) = none ∨
        fsFind fs (tgt ++ rel.take j) = some (.dir true))
    (hcase : fsFind fs (tgt ++ rel) = none ∨ force = true) :
    ∃ a fs1 acts fs2,
      create_link fs (src ++ rel) (tgt ++ rel) force false = .ok (a, fs1) ∧
      (a = .created (src ++ rel) (tgt ++ rel) ∨
        a = .overwritten (src ++ rel) (tgt ++ rel)) ∧
      unlink_targets fs1 src tgt false = .ok (acts, fs2) ∧
      UnlinkAction.removed (tgt ++ rel) ∈ acts ∧
      fsFind fs2 (tgt ++ rel) = none ∧
      pexists fs2 (tgt ++ rel) = false := by
  have hsrcne : src ≠ [] := by
    intro h; subst h; exact hnest1 List.nil_prefix
  have htgtne : tgt ≠ [] := by
    intro h; subst h; exact hnest2 List.nil_prefix
  have hrellen : 0 < rel.length := List.length_pos.mpr hrel
  have htplen : (tgt ++ rel).length = tgt.length + rel.length :=
    List.length_append tgt rel
  have htpne : tgt ++ rel ≠ [] := by
    intro h
    rcases List.append_eq_nil.mp h with ⟨_, h2⟩
    exact hrel h2
  have hnorm_tp : ∀ c ∈ tgt ++ rel, c ≠ "." ∧ c ≠ ".." := by
    intro c hc
    rcases List.mem_append.mp hc with h | h
    · exact hnorm_tgt c h
    · exact hnorm_rel c h
  have hnorm_C : ∀ c ∈ src ++ rel, c ≠ "." ∧ c ≠ ".." := by
    intro c hc
    rcases List.mem_append.mp hc with h | h
    · exact hnorm_src c h
    · exact hnorm_rel c h
  have haux : ∀ r : FsPath, r <+: src ++ rel → ¬ (tgt ++ rel) <+: r := by
    intro r hrC htpr
    have htgtC : tgt <+: src ++ rel :=
      (List.prefix_append tgt rel).trans (htpr.trans hrC)
    have hsrcC : src <+: src ++ rel := List.prefix_append src rel
    rcases List.prefix_or_prefix_of_prefix htgtC hsrcC with h | h
    · exact hnest2 h
    · exact hnest1 h
  rcases create_link_success fs (src ++ rel) (tgt ++ rel) force htpne hnorm_tp
      hroot hpar hcase with ⟨a, fs1, hcl, ha, hfs1tp, hfs1pt⟩
  have hkeep : ∀ r, ¬ (tgt ++ rel) <+: r → fsFind fs r ≠ none →
      fsFind fs1 r = fsFind fs r := by
    intro r h1 h2
    rw [hfs1pt r h1, if_neg]
    intro hcon
    exact h2 hcon.2
  have hsrc1 : ∀ k, k < src.length →
      ∃ b, fsFind fs1 (src.take (k + 1)) = some (.dir b) := by
    intro k hk
    rcases hsrc_chain k hk with ⟨b, hb⟩
    have hpr : ¬ (tgt ++ rel) <+: src.take (k + 1) :=
      haux _ ((List.take_prefix _ src).trans (List.prefix_append src rel))
    exact ⟨b, by rw [hkeep _ hpr (by rw [hb]; simp), hb]⟩
  have htgt1 : fsFind fs1 tgt = some (.dir true) := by
    have hpr : ¬ (tgt ++ rel) <+: tgt := by
      intro h
      have h2 := h.length_le
      rw [htplen] at h2
      omega
    rw [hkeep tgt hpr (by rw [htgt]; simp), htgt]
  have hchain1 : ∀ j, 0 < j → j < rel.length →
      fsFind fs1 (tgt ++ rel.take j) = some (.dir true) := by
    intro j hj0 hjl
    have hlen : (tgt ++ rel.take j).length = tgt.length + j := by
      rw [List.length_append, List.length_take]
      omega
    have hpr : ¬ (tgt ++ rel) <+: tgt ++ rel.take j := by
      intro h
      have h2 := h.length_le
      rw [hlen, htplen] at h2
      omega
    have he : (tgt ++ rel).take (tgt.length + j) = tgt ++ rel.take j :=
      List.take_append j
    have hmem : tgt ++ rel.take j ∈ parentChain (tgt ++ rel) := by
      have h2 := take_mem_parentChain (tgt ++ rel) (tgt.length + j)
        (by omega) (by rw [htplen]; omega)
      rwa [he] at h2
    rcases hpar_inner j hj0 hjl with hn | hd
    · rw [hfs1pt _ hpr, if_pos ⟨hmem, hn⟩]
    · rw [hkeep _ hpr (by rw [hd]; simp), hd]
  have hsrcfull : ∃ b, fsFind fs1 src = some (.dir b) := by
    have hpos : 0 < src.length := List.length_pos.mpr hsrcne
    rcases hsrc1 (src.length - 1) (by omega) with ⟨b, hb⟩
    have h2 : src.length - 1 + 1 = src.length := by omega
    rw [h2, List.take_length] at hb
    exact ⟨b, hb⟩
  have hcsrc : canonicalize fs1 src = some src :=
    canonicalize_clean fs1 src hnorm_src
      (fun k hk => hsrc1 k (by omega))
      (fun _ => Or.inl hsrcfull)
  have hC1_pref : ∀ k, k + 1 < (src ++ rel).length →
      ∃ b, fsFind fs1 ((src ++ rel).take (k + 1)) = some (.dir b) := by
    intro k hk
    rw [List.length_append] at hk
    by_cases hks : k + 1 ≤ src.length
    · rw [List.take_append_of_le_length hks]
      exact hsrc1 k (by omega)
    · obtain ⟨i, hi⟩ : ∃ i, k + 1 = src.length + i :=
        ⟨k + 1 - src.length, by omega⟩
      rw [hi, List.take_append]
      have hi0 : 0 < i := by omega
      have hil : i < rel.length := by omega
      rcases hC_mid i hi0 hil with ⟨b, hb⟩
      have hpr : ¬ (tgt ++ rel) <+: src ++ rel.take i := by
        apply haux
        rw [List.prefix_append_right_inj]
        exact List.take_prefix i rel
      exact ⟨b, by rw [hkeep _ hpr (by rw [hb]; simp), hb]⟩
  have hC1_last : (∃ b, fsFind fs1 (src ++ rel) = some (.dir b)) ∨
      fsFind fs1 (src ++ rel) = some .file := by
    have hpr : ¬ (tgt ++ rel) <+: src ++ rel := haux _ (List.prefix_refl _)
    rcases hC_last with ⟨b, hb⟩ | hb
    · exact Or.inl ⟨b, by rw [hkeep _ hpr (by rw [hb]; simp), hb]⟩
    · exact Or.inr (by rw [hkeep _ hpr (by rw [hb]; simp), hb])
  have hnotT : ∀ T : List FsPath,
      (∀ q ∈ T, strictUnder tgt q ∧
        ∃ ab2 d2, fsFind fs1 q = some (.symlink ab2 d2)) →
      ∀ r, r <+: src ++ rel → r ∉ T := by
    intro T hT r hrC hrT
    have h1 := (hT r hrT).1
    have htgtC : tgt <+: src ++ rel := h1.1.trans hrC
    have hsrcC : src <+: src ++ rel := List.prefix_append src rel
    rcases List.prefix_or_prefix_of_prefix htgtC hsrcC with h | h
    · exact hnest2 h
    · exact hnest1 h
  have HJ : ∀ T : List FsPath,
      (∀ q ∈ T, strictUnder tgt q ∧
        ∃ ab2 d2, fsFind fs1 q = some (.symlink ab2 d2)) →
      src <+: canonicalize_with_ancestor_fallback (eraseKeys fs1 T)
        (destPath (tgt ++ rel) true (src ++ rel)) := by
    intro T hT
    have hdp : destPath (tgt ++ rel) true (src ++ rel) = src ++ rel := rfl
    have hnc : canonicalize (eraseKeys fs1 T) (src ++ rel) =
        some (src ++ rel) := by
      apply canonicalize_clean
      · exact hnorm_C
      · intro k hk
        rcases hC1_pref k hk with ⟨b, hb⟩
        refine ⟨b, ?_⟩
        rw [fsFind_eraseKeys, if_neg (hnotT T hT _ (List.take_prefix _ _))]
        exact hb
      · intro _
        have hni := hnotT T hT (src ++ rel) (List.prefix_refl _)
        rcases hC1_last with ⟨b, hb⟩ | hb
        · exact Or.inl ⟨b, by rw [fsFind_eraseKeys, if_neg hni]; exact hb⟩
        · exact Or.inr (by rw [fsFind_eraseKeys, if_neg hni]; exact hb)
    rw [hdp, cwaf_of_canonicalize (eraseKeys fs1 T) (src ++ rel) (src ++ rel)
      (normalize_lexically_of_norm _ hnorm_C) hnc]
    exact List.prefix_append src rel
  have hfuel : rel.length + 1 ≤ fsDepth fs1 + 3 := by
    have h1 := length_le_fsDepth fs1 (tgt ++ rel) _ hfs1tp
    rw [htplen] at h1
    omega
  rcases walk_reach src fs1
      (fun q => strictUnder tgt q ∧
        ∃ ab2 d2, fsFind fs1 q = some (.symlink ab2 d2))
      true (src ++ rel) (fun q h => h.2)
      rel (fsDepth fs1 + 3) tgt ⟨fs1, []⟩
      hrel hfuel hgit hchain1 htgt1 hfs1tp
      (fun q h1 h2 => ⟨h1, h2⟩) HJ
      ⟨[], (eraseKeys_nil fs1).symm, by simp, by simp⟩
    with ⟨st2, hwalk, hpost⟩
  rcases hpost with ⟨T2, hfs2, hT2P, htpT2, hact⟩
  refine ⟨a, fs1, sortActs st2.acts, st2.fs, hcl, ha, ?_, ?_, ?_, ?_⟩
  · unfold unlink_targets
    simp only [hcsrc, hwalk]
  · exact mem_sortActs.mpr hact
  · rw [hfs2, fsFind_eraseKeys, if_pos htpT2]
  · have hpar1 : ∀ q ∈ parentChain (tgt ++ rel),
        ∃ b, fsFind fs1 q = some (.dir b) := by
      intro q hq
      have hpr : ¬ (tgt ++ rel) <+: q := not_prefix_of_mem_parentChain hq
      rcases hpar q hq with hn | ⟨b, hb⟩
      · exact ⟨true, by rw [hfs1pt q hpr, if_pos ⟨hq, hn⟩]⟩
      · exact ⟨b, by rw [hkeep q hpr (by rw [hb]; simp), hb]⟩
    have hmid2 : ∀ k, k + 1 < (tgt ++ rel).length →
        fsFind st2.fs ((tgt ++ rel).take (k + 1)) = none ∨
          ∃ b, fsFind st2.fs ((tgt ++ rel).take (k + 1)) = some (.dir b) := by
      intro k hk
      have hq := take_mem_parentChain (tgt ++ rel) (k + 1) (Nat.succ_pos k) hk
      rcases hpar1 _ hq with ⟨b, hb⟩
      have hqT2 : (tgt ++ rel).take (k + 1) ∉ T2 := by
        intro hm
        rcases (hT2P _ hm).2 with ⟨ab2, d2, hs⟩
        rw [hs] at hb
        cases hb
      refine Or.inr ⟨b, ?_⟩
      rw [hfs2, fsFind_eraseKeys, if_neg hqT2]
      exact hb
    have hfind2 : fsFind st2.fs (tgt ++ rel) = none := by
      rw [hfs2, fsFind_eraseKeys, if_pos htpT2]
    unfold pexists
    rw [canonicalize_none_of_parents st2.fs (tgt ++ rel) htpne hnorm_tp
      hmid2 hfind2]
    rfl

def wfs2 : Fs :=
  [([], FsNode.dir true), (["s"], .dir true), (["s", "f"], .file),
   (["t"], .dir true)]

/-- Witness for C2 amended: linking `s/f` to `t/f` and unlinking removes
`t/f`, which then no longer exists. -/
theorem c2_witness :
    ∃ a fs1 acts fs2,
      create_link wfs2 (["s"] ++ ["f"]) (["t"] ++ ["f"]) false false =
        .ok (a, fs1) ∧
      (a = .created (["s"] ++ ["f"]) (["t"] ++ ["f"]) ∨
        a = .overwritten (["s"] ++ ["f"]) (["t"] ++ ["f"])) ∧
      unlink_targets fs1 ["s"] ["t"] false = .ok (acts, fs2) ∧
      UnlinkAction.removed (["t"] ++ ["f"]) ∈ acts ∧
      fsFind fs2 (["t"] ++ ["f"]) = none ∧
      pexists fs2 (["t"] ++ ["f"]) = false :=
  c2_amended_round_trip wfs2 ["s"] ["t"] ["f"] false (by decide) (by decide)
    (by decide) (by decide) (by decide) (by decide) (by decide) rfl
    (by decide)
    (by
      intro j hj0 hjl
      simp only [List.length_cons, List.length_nil] at hjl
      omega)
    (Or.inr rfl) rfl (by decide)
    (by
      intro j hj0 hjl
      simp only [List.length_cons, List.length_nil] at hjl
      omega)
    (Or.inl rfl)

/-! ### C5: dry-run as a pure preview -/

theorem visitEntry_dry_fs (csrc : FsPath) (st : UState) (p : FsPath) :
    (visitEntry csrc true st p).fs = st.fs := by
  cases hf : fsFind st.fs p with
  | none => simp only [visitEntry, hf]
  | some node =>
    cases node with
    | file => simp only [visitEntry, hf]
    | dir b => simp only [visitEntry, hf]
    | symlink ab d =>
      by_cases hres :
          ¬ List.isPrefixOf csrc
            (canonicalize_with_ancestor_fallback st.fs (destPath p ab d)) = true
      · have hv : visitEntry csrc true st p = st := by
          simp only [visitEntry, hf]
          rw [if_pos hres]
        rw [hv]
      · have hv : visitEntry csrc true st p =
            { st with acts := .removed p :: st.acts } := by
          simp only [visitEntry, hf]
          rw [if_neg hres]
          simp
        rw [hv]

theorem walkChildren_dry_fs (csrc : FsPath)
    (visitDir : FsPath → UState → Except String UState)
    (H : ∀ p st st2, visitDir p st = .ok st2 → st2.fs = st.fs) (dir : FsPath) :
    ∀ (ns : List String) (st st2 : UState),
      walkChildren csrc true visitDir dir ns st = .ok st2 → st2.fs = st.fs := by
  intro ns
  induction ns with
  | nil =>
    intro st st2 h
    cases h
    rfl
  | cons n ns ih =>
    intro st st2 h
    rw [walkChildren] at h
    cases hf : fsFind st.fs (dir ++ [n]) with
    | none =>
      simp only [hf] at h
      exact ih st st2 h
    | some node =>
      cases node with
      | file =>
        simp only [hf] at h
        exact ih st st2 h
      | symlink ab d =>
        simp only [hf] at h
        exact (ih _ st2 h).trans (visitEntry_dry_fs csrc st (dir ++ [n]))
      | dir b =>
        simp only [hf] at h
        by_cases hn : n = ".git"
        · rw [if_pos hn] at h
          exact ih st st2 h
        · rw [if_neg hn] at h
          cases hv : visitDir (dir ++ [n]) st with
          | error e => simp only [hv] at h; cases h
          | ok st3 =>
            simp only [hv] at h
            exact (ih st3 st2 h).trans (H _ st st3 hv)

theorem walk_dry_fs (csrc : FsPath) :
    ∀ (fuel : Nat) (dir : FsPath) (st st2 : UState),
      walk_symlinks csrc true fuel dir st = .ok st2 → st2.fs = st.fs := by
  intro fuel
  induction fuel with
  | zero =>
    intro dir st st2 h
    cases h
    rfl
  | succ fuel ih =>
    intro dir st st2 h
    rw [walk_symlinks] at h
    cases hf : fsFind st.fs dir with
    | none => simp only [hf] at h; cases h; rfl
    | some node =>
      cases node with
      | file => simp only [hf] at h; cases h
      | dir b =>
        cases b with
        | false => simp only [hf] at h; cases h; rfl
        | true =>
          simp only [hf] at h
          exact walkChildren_dry_fs csrc _ (fun p s1 s2 hh => ih p s1 s2 hh)
            dir (childNames st.fs dir) st st2 h
      | symlink ab d =>
        simp only [hf] at h
        cases hc : canonicalize st.fs dir with
        | none => simp only [hc] at h; cases h; rfl
        | some q => simp only [hc] at h; exact ih q st st2 h

theorem unlink_targets_dry_fs (fs : Fs) (src tgt : FsPath)
    (acts : List UnlinkAction) (fs2 : Fs)
    (h : unlink_targets fs src tgt true = .ok (acts, fs2)) : fs2 = fs := by
  unfold unlink_targets at h
  cases hc : canonicalize fs src with
  | none => simp only [hc] at h; cases h
  | some csrc =>
    simp only [hc] at h
    cases hw : walk_symlinks csrc true (fsDepth fs + 3) tgt ⟨fs, []⟩ with
    | error e => simp only [hw] at h; cases h
    | ok st =>
      simp only [hw] at h
      cases h
      exact walk_dry_fs csrc (fsDepth fs + 3) tgt ⟨fs, []⟩ st hw

theorem create_link_dry_fs (fs : Fs) (sp tp : FsPath) (force : Bool)
    (a : LinkAction) (fs2 : Fs)
    (h : create_link fs sp tp force true = .ok (a, fs2)) : fs2 = fs := by
  unfold create_link at h
  by_cases h1 : (pexists fs tp || isSymlinkL fs tp) = true
  · rw [if_pos h1] at h
    by_cases h2 : (!force) = true
    · rw [if_pos h2] at h
      cases h; rfl
    · rw [if_neg h2] at h
      by_cases h3 : has_symlink_parent fs tp = true
      · rw [if_pos h3] at h
        cases h; rfl
      · rw [if_neg h3] at h
        rw [if_pos rfl] at h
        cases h; rfl
  · rw [if_neg h1] at h
    by_cases h3 : has_symlink_parent fs tp = true
    · rw [if_pos h3] at h; cases h; rfl
    · rw [if_neg h3] at h
      rw [if_pos rfl] at h
      cases h; rfl

theorem create_link_dry_parity (fs : Fs) (sp tp : FsPath) (force : Bool)
    (a : LinkAction) (fs2 : Fs)
    (h : create_link fs sp tp force false = .ok (a, fs2)) :
    create_link fs sp tp force true = .ok (a, fs) := by
  unfold create_link at h ⊢
  by_cases h1 : (pexists fs tp || isSymlinkL fs tp) = true
  · rw [if_pos h1] at h ⊢
    by_cases h2 : (!force) = true
    · rw [if_pos h2] at h ⊢
      cases h; rfl
    · rw [if_neg h2] at h ⊢
      by_cases h3 : has_symlink_parent fs tp = true
      · rw [if_pos h3] at h ⊢; cases h; rfl
      · rw [if_neg h3] at h ⊢
        rw [if_pos rfl]
        rw [if_neg Bool.false_ne_true] at h
        cases hre : remove_entry fs tp with
        | none => simp only [hre] at h; cases h
        | some fsr =>
          simp only [hre] at h
          cases hcp : create_parent_dirs fsr tp with
          | error e => simp only [hcp] at h; cases h
          | ok fs3 => simp only [hcp] at h; cases h; rfl
  · rw [if_neg h1] at h ⊢
    by_cases h3 : has_symlink_parent fs tp = true
    · rw [if_pos h3] at h ⊢; cases h; rfl
    · rw [if_neg h3] at h ⊢
      rw [if_pos rfl]
      rw [if_neg Bool.false_ne_true] at h
      cases hcp : create_parent_dirs fs tp with
      | error e => simp only [hcp] at h; cases h
      | ok fs3 => simp only [hcp] at h; cases h; rfl

theorem child_prefix_head {dir : FsPath} {n n2 : String} {q : FsPath}
    (h1 : (dir ++ [n]) <+: q) (h2 : (dir ++ [n2]) <+: q) : n2 = n := by
  have hl : (dir ++ [n]).length = (dir ++ [n2]).length := by
    simp [List.length_append]
  rcases List.prefix_or_prefix_of_prefix h1 h2 with h | h
  · have he := h.eq_of_length hl
    have h3 := List.append_cancel_left he
    simpa using h3.symm
  · have he := h.eq_of_length hl.symm
    have h3 := List.append_cancel_left he
    simpa using h3

theorem childNames_nodup (fs : Fs) (d : FsPath) : (childNames fs d).Nodup := by
  unfold childNames
  exact List.nodup_dedup _

theorem childNames_eraseKeys (fs : Fs) (T : List FsPath) (d : FsPath)
    (h : ∀ q ∈ T, ¬ d <+: q) :
    childNames (eraseKeys fs T) d = childNames fs d := by
  unfold childNames eraseKeys
  congr 1
  induction fs with
  | nil => rfl
  | cons b fs ih =>
    rw [List.filter_cons]
    by_cases hbT : b.1 ∈ T
    · rw [if_neg (by simp [hbT])]
      have hfb : (if b.1.length = d.length + 1 ∧ d <+: b.1
          then b.1.getLast? else none) = none := by
        rw [if_neg]
        intro hc
        exact h b.1 hbT hc.2
      simp only [List.filterMap_cons]
      rw [hfb]
      exact ih
    · rw [if_pos (by simp [hbT])]
      simp only [List.filterMap_cons]
      rw [ih]

/-- One directory level of the dry/real lockstep: under the stability
hypothesis the two runs take the same branches, record the same outcomes,
and the real run's filesystem stays an erasure of removed target-side
symlinks. -/
theorem walkChildren_lock (csrc : FsPath) (fs : Fs) (rootd : FsPath)
    (fuel : Nat) (dir : FsPath)
    (Hstab : ∀ p ab d, strictUnder rootd p →
      fsFind fs p = some (.symlink ab d) →
      ∀ T : List FsPath, (∀ q ∈ T, strictUnder rootd q ∧
          ∃ ab2 d2, fsFind fs q = some (.symlink ab2 d2)) →
        List.isPrefixOf csrc (canonicalize_with_ancestor_fallback
          (eraseKeys fs T) (destPath p ab d)) =
        List.isPrefixOf csrc (canonicalize_with_ancestor_fallback fs
          (destPath p ab d)))
    (hdirroot : rootd <+: dir)
    (IH : ∀ (dir2 : FsPath) (acts : List UnlinkAction) (T : List FsPath),
      rootd <+: dir2 →
      (∀ q ∈ T, strictUnder rootd q ∧
        ∃ ab2 d2, fsFind fs q = some (.symlink ab2 d2)) →
      (∀ q ∈ T, ¬ dir2 <+: q) →
      (fsFind fs dir2 = none ∨ ∃ b, fsFind fs dir2 = some (.dir b)) →
      ∃ new T2,
        walk_symlinks csrc true fuel dir2 ⟨fs, acts⟩ = .ok ⟨fs, new ++ acts⟩ ∧
        walk_symlinks csrc false fuel dir2 ⟨eraseKeys fs T, acts⟩ =
          .ok ⟨eraseKeys fs (T2 ++ T), new ++ acts⟩ ∧
        (∀ q ∈ T2, strictUnder rootd q ∧
          ∃ ab2 d2, fsFind fs q = some (.symlink ab2 d2)) ∧
        (∀ q ∈ T2, strictUnder dir2 q)) :
    ∀ (ns : List String) (acts : List UnlinkAction) (T : List FsPath),
      ns.Nodup →
      (∀ q ∈ T, strictUnder rootd q ∧
        ∃ ab2 d2, fsFind fs q = some (.symlink ab2 d2)) →
      (∀ q ∈ T, ∀ n ∈ ns, ¬ (dir ++ [n]) <+: q) →
      ∃ new T2,
        walkChildren csrc true (walk_symlinks csrc true fuel) dir ns
          ⟨fs, acts⟩ = .ok ⟨fs, new ++ acts⟩ ∧
        walkChildren csrc false (walk_symlinks csrc false fuel) dir ns
          ⟨eraseKeys fs T, acts⟩ = .ok ⟨eraseKeys fs (T2 ++ T), new ++ acts⟩ ∧
        (∀ q ∈ T2, strictUnder rootd q ∧
          ∃ ab2 d2, fsFind fs q = some (.symlink ab2 d2)) ∧
        (∀ q ∈ T2, ∃ n ∈ ns, (dir ++ [n]) <+: q) := by
  intro ns
  induction ns with
  | nil =>
    intro acts T _ _ _
    refine ⟨[], [], rfl, rfl, ?_, ?_⟩ <;> intro q hq <;>
      exact absurd hq (List.not_mem_nil q)
  | cons n ns ih =>
    intro acts T hnd hT hdis
    have hn_mem : n ∈ n :: ns := List.mem_cons_self n ns
    have hpT : dir ++ [n] ∉ T :=
      fun hm => hdis _ hm n hn_mem (List.prefix_refl _)
    have hfr : fsFind (eraseKeys fs T) (dir ++ [n]) = fsFind fs (dir ++ [n]) := by
      rw [fsFind_eraseKeys, if_neg hpT]
    have hnd2 := (List.nodup_cons.mp hnd).2
    have hnmem := (List.nodup_cons.mp hnd).1
    have hdis2 : ∀ q ∈ T, ∀ n2 ∈ ns, ¬ (dir ++ [n2]) <+: q :=
      fun q hq n2 hn2 => hdis q hq n2 (List.mem_cons_of_mem n hn2)
    simp only [walkChildren, hfr]
    cases hf : fsFind fs (dir ++ [n]) with
    | none =>
      rcases ih acts T hnd2 hT hdis2 with ⟨new, T2, hd, hr, h3, h4⟩
      refine ⟨new, T2, hd, hr, h3, ?_⟩
      intro q hq
      rcases h4 q hq with ⟨n2, hn2, hp2⟩
      exact ⟨n2, List.mem_cons_of_mem n hn2, hp2⟩
    | some node =>
      cases node with
      | file =>
        rcases ih acts T hnd2 hT hdis2 with ⟨new, T2, hd, hr, h3, h4⟩
        refine ⟨new, T2, hd, hr, h3, ?_⟩
        intro q hq
        rcases h4 q hq with ⟨n2, hn2, hp2⟩
        exact ⟨n2, List.mem_cons_of_mem n hn2, hp2⟩
      | dir b =>
        by_cases hg : n = ".git"
        · rw [if_pos hg, if_pos hg]
          rcases ih acts T hnd2 hT hdis2 with ⟨new, T2, hd, hr, h3, h4⟩
          refine ⟨new, T2, hd, hr, h3, ?_⟩
          intro q hq
          rcases h4 q hq with ⟨n2, hn2, hp2⟩
          exact ⟨n2, List.mem_cons_of_mem n hn2, hp2⟩
        · rw [if_neg hg, if_neg hg]
          rcases IH (dir ++ [n]) acts T
              (hdirroot.trans (List.prefix_append dir [n])) hT
              (fun q hq => hdis q hq n hn_mem) (Or.inr ⟨b, hf⟩) with
            ⟨new1, T21, hw_d, hw_r, hT21, hT21u⟩
          simp only [hw_d, hw_r]
          have hT' : ∀ q ∈ T21 ++ T, strictUnder rootd q ∧
              ∃ ab2 d2, fsFind fs q = some (.symlink ab2 d2) := by
            intro q hq
            rcases List.mem_append.mp hq with h | h
            · exact hT21 q h
            · exact hT q h
          have hdis' : ∀ q ∈ T21 ++ T, ∀ n2 ∈ ns, ¬ (dir ++ [n2]) <+: q := by
            intro q hq n2 hn2 hpre
            rcases List.mem_append.mp hq with h | h
            · have h5 := child_prefix_head (hT21u q h).1 hpre
              exact hnmem (h5 ▸ hn2)
            · exact hdis2 q h n2 hn2 hpre
          rcases ih (new1 ++ acts) (T21 ++ T) hnd2 hT' hdis' with
            ⟨new2, T22, hd2, hr2, h3, h4⟩
          refine ⟨new2 ++ new1, T22 ++ T21, ?_, ?_, ?_, ?_⟩
          · rw [List.append_assoc]
            exact hd2
          · rw [List.append_assoc, List.append_assoc]
            exact hr2
          · intro q hq
            rcases List.mem_append.mp hq with h | h
            · exact h3 q h
            · exact hT21 q h
          · intro q hq
            rcases List.mem_append.mp hq with h | h
            · rcases h4 q h with ⟨n2, hn2, hp2⟩
              exact ⟨n2, List.mem_cons_of_mem n hn2, hp2⟩
            · exact ⟨n, hn_mem, (hT21u q h).1⟩
      | symlink ab d =>
        have hsu : strictUnder rootd (dir ++ [n]) := by
          constructor
          · exact hdirroot.trans (List.prefix_append dir [n])
          · intro he
            have h1 := hdirroot.length_le
            rw [he, List.length_append] at h1
            simp only [List.length_cons, List.length_nil] at h1
            omega
        have hfrE : fsFind (eraseKeys fs T) (dir ++ [n]) =
            some (.symlink ab d) := by
          rw [hfr, hf]
        have hstabEq := Hstab (dir ++ [n]) ab d hsu hf T hT
        by_cases hres : List.isPrefixOf csrc
            (canonicalize_with_ancestor_fallback fs
              (destPath (dir ++ [n]) ab d)) = true
        · have hv_d : visitEntry csrc true ⟨fs, acts⟩ (dir ++ [n]) =
              ⟨fs, .removed (dir ++ [n]) :: acts⟩ := by
            simp only [visitEntry, hf]
            rw [if_neg (not_not_intro hres)]
            simp
          have hre : remove_entry (eraseKeys fs T) (dir ++ [n]) =
              some (eraseKey (eraseKeys fs T) (dir ++ [n])) := by
            rw [remove_entry, hfrE]
          have hv_r : visitEntry csrc false ⟨eraseKeys fs T, acts⟩
              (dir ++ [n]) =
              ⟨eraseKeys fs ((dir ++ [n]) :: T),
                .removed (dir ++ [n]) :: acts⟩ := by
            simp only [visitEntry, hfrE]
            rw [if_neg (not_not_intro (by rw [hstabEq]; exact hres))]
            simp only [Bool.false_eq_true, if_false, hre]
            simp only [eraseKey_eq_eraseKeys, eraseKeys_eraseKeys,
              List.singleton_append]
          simp only [hv_d, hv_r]
          have hT' : ∀ q ∈ (dir ++ [n]) :: T, strictUnder rootd q ∧
              ∃ ab2 d2, fsFind fs q = some (.symlink ab2 d2) := by
            intro q hq
            rcases List.mem_cons.mp hq with h | h
            · subst h
              exact ⟨hsu, ab, d, hf⟩
            · exact hT q h
          have hdis' : ∀ q ∈ (dir ++ [n]) :: T, ∀ n2 ∈ ns,
              ¬ (dir ++ [n2]) <+: q := by
            intro q hq n2 hn2 hpre
            rcases List.mem_cons.mp hq with h | h
            · subst h
              have h5 := child_prefix_head (List.prefix_refl (dir ++ [n])) hpre
              exact hnmem (h5 ▸ hn2)
            · exact hdis2 q h n2 hn2 hpre
          rcases ih (.removed (dir ++ [n]) :: acts) ((dir ++ [n]) :: T)
              hnd2 hT' hdis' with ⟨new2, T22, hd2, hr2, h3, h4⟩
          refine ⟨new2 ++ [.removed (dir ++ [n])], T22 ++ [dir ++ [n]],
            ?_, ?_, ?_, ?_⟩
          · rw [List.append_assoc]
            exact hd2
          · rw [List.append_assoc, List.append_assoc]
            exact hr2
          · intro q hq
            rcases List.mem_append.mp hq with h | h
            · exact h3 q h
            · have hq2 : q = dir ++ [n] := by simpa using h
              subst hq2
              exact ⟨hsu, ab, d, hf⟩
          · intro q hq
            rcases List.mem_append.mp hq with h | h
            · rcases h4 q h with ⟨n2, hn2, hp2⟩
              exact ⟨n2, List.mem_cons_of_mem n hn2, hp2⟩
            · have hq2 : q = dir ++ [n] := by simpa using h
              subst hq2
              exact ⟨n, hn_mem, List.prefix_refl _⟩
        · have hv_d : visitEntry csrc true ⟨fs, acts⟩ (dir ++ [n]) =
              ⟨fs, acts⟩ := by
            simp only [visitEntry, hf]
            rw [if_pos hres]
          have hv_r : visitEntry csrc false ⟨eraseKeys fs T, acts⟩
              (dir ++ [n]) = ⟨eraseKeys fs T, acts⟩ := by
            simp only [visitEntry, hfrE]
            rw [if_pos (by rw [hstabEq]; exact hres)]
          simp only [hv_d, hv_r]
          rcases ih acts T hnd2 hT hdis2 with ⟨new, T2, hd, hr, h3, h4⟩
          refine ⟨new, T2, hd, hr, h3, ?_⟩
          intro q hq
          rcases h4 q hq with ⟨n2, hn2, hp2⟩
          exact ⟨n2, List.mem_cons_of_mem n hn2, hp2⟩

/-- Dry/real lockstep for the whole walk: when every visited symlink's
source-prefix verdict is unchanged by the removal of other target-side
symlinks, the dry run and the real run of `walk_symlinks` succeed with
identical outcome lists, the dry run keeping the filesystem and the real
run erasing exactly the removed links. -/
theorem walk_lock (csrc : FsPath) (fs : Fs) (rootd : FsPath)
    (Hstab : ∀ p ab d, strictUnder rootd p →
      fsFind fs p = some (.symlink ab d) →
      ∀ T : List FsPath, (∀ q ∈ T, strictUnder rootd q ∧
          ∃ ab2 d2, fsFind fs q = some (.symlink ab2 d2)) →
        List.isPrefixOf csrc (canonicalize_with_ancestor_fallback
          (eraseKeys fs T) (destPath p ab d)) =
        List.isPrefixOf csrc (canonicalize_with_ancestor_fallback fs
          (destPath p ab d))) :
    ∀ (fuel : Nat) (dir : FsPath) (acts : List UnlinkAction)
      (T : List FsPath),
      rootd <+: dir →
      (∀ q ∈ T, strictUnder rootd q ∧
        ∃ ab2 d2, fsFind fs q = some (.symlink ab2 d2)) →
      (∀ q ∈ T, ¬ dir <+: q) →
      (fsFind fs dir = none ∨ ∃ b, fsFind fs dir = some (.dir b)) →
      ∃ new T2,
        walk_symlinks csrc true fuel dir ⟨fs, acts⟩ = .ok ⟨fs, new ++ acts⟩ ∧
        walk_symlinks csrc false fuel dir ⟨eraseKeys fs T, acts⟩ =
          .ok ⟨eraseKeys fs (T2 ++ T), new ++ acts⟩ ∧
        (∀ q ∈ T2, strictUnder rootd q ∧
          ∃ ab2 d2, fsFind fs q = some (.symlink ab2 d2)) ∧
        (∀ q ∈ T2, strictUnder dir q) := by
  intro fuel
  induction fuel with
  | zero =>
    intro dir acts T _ _ _ _
    refine ⟨[], [], rfl, rfl, ?_, ?_⟩ <;> intro q hq <;>
      exact absurd hq (List.not_mem_nil q)
  | succ fuel ih =>
    intro dir acts T hroot hT hdis hfound
    have hdT : dir ∉ T := fun hm => hdis dir hm (List.prefix_refl dir)
    have hfr : fsFind (eraseKeys fs T) dir = fsFind fs dir := by
      rw [fsFind_eraseKeys, if_neg hdT]
    rcases hfound with hf | ⟨b, hf⟩
    · have h_d : walk_symlinks csrc true (fuel + 1) dir ⟨fs, acts⟩ =
          .ok ⟨fs, acts⟩ := by
        rw [walk_symlinks]
        simp only [hf]
      have h_r : walk_symlinks csrc false (fuel + 1) dir
          ⟨eraseKeys fs T, acts⟩ = .ok ⟨eraseKeys fs T, acts⟩ := by
        rw [walk_symlinks]
        simp only [hfr, hf]
      refine ⟨[], [], h_d, h_r, ?_, ?_⟩ <;> intro q hq <;>
        exact absurd hq (List.not_mem_nil q)
    · cases b with
      | false =>
        have h_d : walk_symlinks csrc true (fuel + 1) dir ⟨fs, acts⟩ =
            .ok ⟨fs, acts⟩ := by
          rw [walk_symlinks]
          simp only [hf]
        have h_r : walk_symlinks csrc false (fuel + 1) dir
            ⟨eraseKeys fs T, acts⟩ = .ok ⟨eraseKeys fs T, acts⟩ := by
          rw [walk_symlinks]
          simp only [hfr, hf]
        refine ⟨[], [], h_d, h_r, ?_, ?_⟩ <;> intro q hq <;>
          exact absurd hq (List.not_mem_nil q)
      | true =>
        have hfrT : fsFind (eraseKeys fs T) dir = some (.dir true) := by
          rw [hfr, hf]
        have hcn : childNames (eraseKeys fs T) dir = childNames fs dir :=
          childNames_eraseKeys fs T dir hdis
        have h_d : walk_symlinks csrc true (fuel + 1) dir ⟨fs, acts⟩ =
            walkChildren csrc true (walk_symlinks csrc true fuel) dir
              (childNames fs dir) ⟨fs, acts⟩ := by
          rw [walk_symlinks]
          simp only [hf]
        have h_r : walk_symlinks csrc false (fuel + 1) dir
            ⟨eraseKeys fs T, acts⟩ =
            walkChildren csrc false (walk_symlinks csrc false fuel) dir
              (childNames fs dir) ⟨eraseKeys fs T, acts⟩ := by
          rw [walk_symlinks]
          simp only [hfrT, hcn]
        have hdis2 : ∀ q ∈ T, ∀ n ∈ childNames fs dir,
            ¬ (dir ++ [n]) <+: q :=
          fun q hq n _ hpre =>
            hdis q hq ((List.prefix_append dir [n]).trans hpre)
        rcases walkChildren_lock csrc fs rootd fuel dir Hstab hroot
            (fun dir2 acts2 T2 h1 h2 h3 h4 => ih dir2 acts2 T2 h1 h2 h3 h4)
            (childNames fs dir) acts T (childNames_nodup fs dir) hT hdis2 with
          ⟨new, T2, hd, hr, h3, h4⟩
        refine ⟨new, T2, ?_, ?_, h3, ?_⟩
        · rw [h_d]
          exact hd
        · rw [h_r]
          exact hr
        · intro q hq
          rcases h4 q hq with ⟨n, _, hpre⟩
          constructor
          · exact (List.prefix_append dir [n]).trans hpre
          · intro he
            have h5 := hpre.length_le
            rw [← he, List.length_append] at h5
            simp only [List.length_cons, List.length_nil] at h5
            omega

def fs5 : Fs :=
  [([], FsNode.dir true), (["src"], .dir true), (["src", "d"], .dir true),
   (["tgt"], .dir true),
   (["tgt", "a"], .symlink true ["src"]),
   (["tgt", "b"], .symlink true ["tgt", "a", "d"])]

/-- C5 counterexample: `tgt/b` resolves through `tgt/a`.  The dry run
reports both links `Removed`, but the real run removes `tgt/a` first,
after which `tgt/b`'s ancestor-fallback resolution no longer lands under
the source, so the real outcome list differs from the dry one. -/
theorem c5_counterexample :
    unlink_targets fs5 ["src"] ["tgt"] true =
      .ok ([.removed ["tgt", "a"], .removed ["tgt", "b"]], fs5) ∧
    unlink_targets fs5 ["src"] ["tgt"] false =
      .ok ([.removed ["tgt", "a"]],
        [([], FsNode.dir true), (["src"], .dir true),
         (["src", "d"], .dir true), (["tgt"], .dir true),
         (["tgt", "b"], .symlink true ["tgt", "a", "d"])]) ∧
    ([UnlinkAction.removed ["tgt", "a"], .removed ["tgt", "b"]] ≠
      [UnlinkAction.removed ["tgt", "a"]]) :=
  ⟨rfl, rfl, by decide⟩

/-- Stability of one link's verdict under an erasure: Boolean so that
concrete instances evaluate. -/
def stabB (fs : Fs) (csrc p : FsPath) (T : List FsPath) : Bool :=
  match fsFind fs p with
  | some (.symlink ab d) =>
    List.isPrefixOf csrc (canonicalize_with_ancestor_fallback
      (eraseKeys fs T) (destPath p ab d)) ==
    List.isPrefixOf csrc
      (canonicalize_with_ancestor_fallback fs (destPath p ab d))
  | _ => true

/-- C5 amended: dry-run never mutates the filesystem, and `create_link`'s
dry outcome agrees with the real one whenever the real run succeeds; for
`unlink_targets` the dry and real outcome lists agree whenever every
target-side symlink's resolution verdict is stable under removal of the
other target-side symlinks (the disjoint-links regime) - without that
stability the counterexample shows they diverge. -/
theorem c5_amended_dry_run (fs : Fs) (sp tp src tgt csrc : FsPath)
    (force : Bool)
    (hcsrc : canonicalize fs src = some csrc)
    (htgt : fsFind fs tgt = none ∨ ∃ b, fsFind fs tgt = some (.dir b))
    (Hstab : ∀ p ∈ symKeysUnder fs tgt, ∀ T ∈ (symKeysUnder fs tgt).sublists,
      stabB fs csrc p T = true) :
    (∀ a fs2, create_link fs sp tp force true = .ok (a, fs2) → fs2 = fs) ∧
    (∀ a fs2, create_link fs sp tp force false = .ok (a, fs2) →
      create_link fs sp tp force true = .ok (a, fs)) ∧
    (∀ acts fs2, unlink_targets fs src tgt true = .ok (acts, fs2) →
      fs2 = fs) ∧
    (∃ acts fs2,
      unlink_targets fs src tgt true = .ok (acts, fs) ∧
      unlink_targets fs src tgt false = .ok (acts, fs2)) := by
  refine ⟨fun a fs2 h => create_link_dry_fs fs sp tp force a fs2 h,
    fun a fs2 h => create_link_dry_parity fs sp tp force a fs2 h,
    fun acts fs2 h => unlink_targets_dry_fs fs src tgt acts fs2 h, ?_⟩
  have Hstab2 : ∀ p ab d, strictUnder tgt p →
      fsFind fs p = some (.symlink ab d) →
      ∀ T : List FsPath, (∀ q ∈ T, strictUnder tgt q ∧
          ∃ ab2 d2, fsFind fs q = some (.symlink ab2 d2)) →
        List.isPrefixOf csrc (canonicalize_with_ancestor_fallback
          (eraseKeys fs T) (destPath p ab d)) =
        List.isPrefixOf csrc (canonicalize_with_ancestor_fallback fs
          (destPath p ab d)) := by
    intro p ab d hsu hf T hT
    rcases eraseKeys_reduce_sublist fs tgt T hT with ⟨T3, hT3s, hT3e⟩
    rw [hT3e]
    have h2 := Hstab p (mem_symKeysUnder hf hsu) T3 hT3s
    unfold stabB at h2
    rw [hf] at h2
    have h3 : (List.isPrefixOf csrc (canonicalize_with_ancestor_fallback
        (eraseKeys fs T3) (destPath p ab d)) ==
      List.isPrefixOf csrc (canonicalize_with_ancestor_fallback fs
        (destPath p ab d))) = true := h2
    simpa [beq_iff_eq] using h3
  rcases walk_lock csrc fs tgt Hstab2 (fsDepth fs + 3) tgt [] []
      (List.prefix_refl tgt) (by simp) (by simp) htgt with
    ⟨new, T2, hd, hr, _, _⟩
  simp only [List.append_nil, eraseKeys_nil] at hd hr
  refine ⟨sortActs new, eraseKeys fs T2, ?_, ?_⟩
  · unfold unlink_targets
    simp only [hcsrc, hd]
  · unfold unlink_targets
    simp only [hcsrc, hr]

def wfs5 : Fs :=
  [([], FsNode.dir true), (["s"], .dir true), (["s", "d"], .file),
   (["t"], .dir true), (["t", "x"], .symlink true ["s", "d"])]

/-- Witness for C5 amended: a single independent link, where dry and
real runs agree and dry-run leaves the filesystem untouched. -/
theorem c5_witness :
    (∀ a fs2, create_link wfs5 ["s", "d"] ["t", "x"] false true =
      .ok (a, fs2) → fs2 = wfs5) ∧
    (∀ a fs2, create_link wfs5 ["s", "d"] ["t", "x"] false false =
      .ok (a, fs2) →
      create_link wfs5 ["s", "d"] ["t", "x"] false true = .ok (a, wfs5)) ∧
    (∀ acts fs2, unlink_targets wfs5 ["s"] ["t"] true = .ok (acts, fs2) →
      fs2 = wfs5) ∧
    (∃ acts fs2,
      unlink_targets wfs5 ["s"] ["t"] true = .ok (acts, wfs5) ∧
      unlink_targets wfs5 ["s"] ["t"] false = .ok (acts, fs2)) :=
  c5_amended_dry_run wfs5 ["s", "d"] ["t", "x"] ["s"] ["t"] ["s"] false rfl
    (Or.inr ⟨true, rfl⟩) (by decide)
